import Mathlib

/-!
# Kernel monitor (`kern/monitor.c`): embedding and verified properties

The monitor is embedded as pure functions.

* The console is the stream of characters written by `cprintf`.
* Machine state read by the commands (memory words, the frame-pointer register,
  linker symbols) is collected in `Machine`.
* Every word of memory can be read: `Machine.load` is total, and a read that faults on
  the machine is outside the model.
* The command buffer of `runcmd` is a list of characters; the moving pointer `buf`
  splits it into the bytes below the pointer and the bytes from the pointer on.
  Reading past the end of the buffer has no defined result (`none`).
* Loops without a bound in the source take a step budget; a budget that runs out
  gives `none`.
-/

namespace Monitor

/-! ## Characters, strings and the console -/

/-- The NUL character that terminates C strings. -/
def NUL : Char := Char.ofNat 0

/-- Characters written to the console so far, oldest first. -/
abbrev Console := List Char

/-- Console output of `cprintf` once its format has been expanded to `s`. -/
def cprintf (s : List Char) (out : Console) : Console := out ++ s

/-- Modelled from the spec: `strchr` of `inc/string.h` is not under `src/`; as in the C
library, the result is non-null exactly when `c` occurs in the string `s`. -/
def strchr (s : String) (c : Char) : Bool := decide (c ∈ s.toList)

/-- Modelled from the spec: `strcmp` of `inc/string.h` is not under `src/`; as in the C
library it walks both strings while the characters agree and are not NUL and returns the
difference of the first characters that disagree. The end of a list reads as NUL. -/
def strcmp : List Char → List Char → Int
  | [], [] => 0
  | [], q :: _ => 0 - (q.toNat : Int)
  | p :: _, [] => (p.toNat : Int)
  | p :: ps, q :: qs =>
    if p ≠ NUL ∧ p = q then strcmp ps qs else (p.toNat : Int) - (q.toNat : Int)

/-- The C string that starts at offset `p` of `buf`: the characters up to the next NUL. -/
def cstrAt (buf : List Char) (p : Nat) : List Char :=
  (buf.drop p).takeWhile (fun c => c != NUL)

/-- One hexadecimal digit, lower case as printed by `%x`. -/
def hexDigit (d : Nat) : Char :=
  if d < 10 then Char.ofNat (48 + d) else Char.ofNat (87 + d)

/-- Expansion of `%08x` for a 32-bit value: eight hexadecimal digits, zero padded. -/
def hex8 (w : Nat) : List Char :=
  [28, 24, 20, 16, 12, 8, 4, 0].map (fun s => hexDigit ((w % 2 ^ 32) / 2 ^ s % 16))

/-! ## Machine state -/

/-- The machine state the commands read. `load a` is the 32-bit word found at byte
address `a`; `ebp` is what `read_ebp()` returns; the remaining fields are the linker
symbols and the `KERNBASE` constant used by `mon_kerninfo`. -/
structure Machine where
  load : Nat → Nat
  ebp : Nat
  sym_start : Nat
  sym_entry : Nat
  sym_etext : Nat
  sym_edata : Nat
  sym_end : Nat
  kernbase : Nat

/-- The word `p[k]` for a `uint32_t *p`: the word at byte address `p + 4 * k`. -/
def word (m : Machine) (p k : Nat) : Nat :=
  m.load ((p + 4 * k) % 2 ^ 32) % 2 ^ 32

/-! ## `mon_backtrace` -/

/-- The header printed by `mon_backtrace`: `cprintf("Stack backtrace:\n")`. -/
def backtraceHeader : List Char := "Stack backtrace:\n".toList

/-- Expansion of the format
`"  ebp %08x  eip %08x  args %08x %08x %08x %08x %08x\n"`. -/
def frameLine (ebp eip a0 a1 a2 a3 a4 : Nat) : List Char :=
  "  ebp ".toList ++ hex8 ebp ++ "  eip ".toList ++ hex8 eip ++ "  args ".toList ++
    hex8 a0 ++ " ".toList ++ hex8 a1 ++ " ".toList ++ hex8 a2 ++ " ".toList ++
    hex8 a3 ++ " ".toList ++ hex8 a4 ++ "\n".toList

/-- Body of the `while (ebp != 0)` loop of `mon_backtrace`, up to the two `cprintf`
calls: reads `eip = ebp[1]` and `args = ebp + 2`, prints the header and the frame. -/
def backtraceBody (m : Machine) (ebp : Nat) (out : Console) : Console :=
  let eip := word m ebp 1
  let args := (ebp + 4 * 2) % 2 ^ 32
  let out1 := cprintf backtraceHeader out
  cprintf (frameLine ebp eip (word m args 0) (word m args 1) (word m args 2)
    (word m args 3) (word m args 4)) out1

/-- The `while (ebp != 0)` loop of `mon_backtrace`, run for at most `fuel` tests of the
loop condition. `some out` is the console when the loop has ended; `none` means the
loop is still running when the budget ends. -/
def backtraceLoop (m : Machine) : Nat → Nat → Console → Option Console
  | 0, _, _ => none
  | fuel + 1, ebp, out =>
    if ebp = 0 then some out
    else backtraceLoop m fuel (word m ebp 0) (backtraceBody m ebp out)

/-- The console after `n` iterations of the loop body from frame pointer `ebp`, and the
frame pointer reached: the state of the loop whether or not it ever ends. -/
def backtraceSteps (m : Machine) : Nat → Nat → Console → Nat × Console
  | 0, ebp, out => (ebp, out)
  | n + 1, ebp, out =>
    if ebp = 0 then (ebp, out)
    else backtraceSteps m n (word m ebp 0) (backtraceBody m ebp out)

/-- The command `mon_backtrace`: starts from `read_ebp()`, runs the loop and returns 0. The
arguments `argc`, `argv` and `tf` are not used. -/
def mon_backtrace (m : Machine) (fuel : Nat) (_argc : Nat) (_argv : List (List Char))
    (_tf : Nat) (out : Console) : Option (Int × Console) :=
  match backtraceLoop m fuel (m.ebp % 2 ^ 32) out with
  | none => none
  | some out1 => some (0, out1)

/-! ## The command table and the informational commands -/

/-- The type of a command function `int (*func)(int argc, char **argv, struct Trapframe *tf)`
acting on the console: `argc`, the strings `argv[0..argc-1]`, the pointer `tf`. The result
is `none` when the call does not return within the step budget. -/
abbrev Handler := Nat → List (List Char) → Nat → Console → Option (Int × Console)

/-- An entry of the table: `struct Command`. The function pointer `func` is a value of
type `F`, given its meaning by the caller of `func`. -/
structure Command (F : Type) where
  name : String
  desc : String
  func : F

/-- The functions of this file that the table points to. -/
inductive MonFn where
  | mon_help
  | mon_kerninfo
  | mon_show
  | mon_backtrace
  deriving DecidableEq, Repr

/-- The table `commands[]`. -/
def commands : List (Command MonFn) :=
  [ { name := "help", desc := "Display this list of commands", func := MonFn.mon_help },
    { name := "kerninfo", desc := "Display information about the kernel",
      func := MonFn.mon_kerninfo },
    { name := "show", desc := "Backtrace through the machine", func := MonFn.mon_show },
    { name := "backtrace", desc := "Backtrace through the machine",
      func := MonFn.mon_backtrace } ]

/-- The loop of `mon_help` over a table: one `cprintf("%s - %s\n", name, desc)` each. -/
def helpLoop {F : Type} : List (Command F) → Console → Console
  | [], out => out
  | c :: cs, out =>
    helpLoop cs (cprintf (c.name.toList ++ " - ".toList ++ c.desc.toList ++ "\n".toList) out)

/-- The command `mon_help`: prints every entry of `commands` and returns 0. -/
def mon_help (_argc : Nat) (_argv : List (List Char)) (_tf : Nat) (out : Console) :
    Option (Int × Console) :=
  some (0, helpLoop commands out)

/-- Expansion of `%-6s`: the string, padded with blanks on the right to six columns. -/
def padRight6 (s : List Char) : List Char :=
  s ++ List.replicate (6 - s.length) ' '

/-- The sixteen `cprintf("\e[1;<colour>m%-6s\e[m", <line>)` calls of `mon_show`: the
colour number and the line of each call, in order. -/
def showLines : List (Nat × String) :=
  [ (36, "                __ \n"),
    (35, "              .'  '. \n"),
    (34, "             :      : \n"),
    (33, "             | _  _ | \n"),
    (32, "          .-.|(o)(o)|.-.        _._          _._ \n"),
    (31, "         ( ( | .--. | ) )     .',_ '.      .' _,'. \n"),
    (32, "          '-/ (    ) \\-'     / /' `\\ \\ __ / /' `\\ \\ \n"),
    (33, "           /   '--' \\     / /     \\.'  './     \\ \\ \n"),
    (34, "           \\ `\"====\"` /     `-`     : _  _ :      `-' \n"),
    (35, "            `\\      /'              |(o)(o)| \n"),
    (36, "              `\\  /'                |      | \n"),
    (35, "              /`-.-`\\_             /        \\ \n"),
    (34, "        _..:;\\._/V\\_./:;.._       /   .--.   \\ \n"),
    (33, "      .'/;:;:;\\ /^\\ /:;:;:\\'.     |  (    )  | \n"),
    (32, "     / /;:;:;:\\| |/;:;:;:\\ \\     _\\   '--'  /__ \n"),
    (31, "    / /;:;:;:;:\\_/;:;:;:;:\\ \\  .'   '-.__.-'   `-. \n") ]

/-- One call of `mon_show`: escape sequence for the colour, the line, the reset escape. -/
def showLine (l : Nat × String) (out : Console) : Console :=
  cprintf ("\x1b[1;".toList ++ (Nat.repr l.1).toList ++ "m".toList ++
    padRight6 l.2.toList ++ "\x1b[m".toList) out

/-- The command `mon_show`: prints the picture and returns 0. -/
def mon_show (_argc : Nat) (_argv : List (List Char)) (_tf : Nat) (out : Console) :
    Option (Int × Console) :=
  some (0, showLines.foldl (fun o l => showLine l o) out)

/-- The macro `ROUNDUP(a, n)` of `inc/types.h` (not under `src/`) on a 32-bit value:
`a + n - 1` rounded down to a multiple of `n`, in 32-bit arithmetic. -/
def ROUNDUP (a n : Nat) : Nat :=
  let b := (a % 2 ^ 32 + n - 1) % 2 ^ 32
  b - b % n

/-- A 32-bit pattern read as a signed `int`. -/
def toInt32 (w : Nat) : Int :=
  if w % 2 ^ 32 < 2 ^ 31 then (w % 2 ^ 32 : Nat) else ((w % 2 ^ 32 : Nat) : Int) - 2 ^ 32

/-- Expansion of `%d`. -/
def fmtInt (i : Int) : List Char :=
  if i < 0 then '-' :: (Nat.repr i.natAbs).toList else (Nat.repr i.natAbs).toList

/-- Pointer difference and pointer-minus-offset in 32-bit arithmetic. -/
def sub32 (a b : Nat) : Nat := (a % 2 ^ 32 + (2 ^ 32 - b % 2 ^ 32)) % 2 ^ 32

/-- The command `mon_kerninfo`: prints the linker symbols and the size of the kernel image. -/
def mon_kerninfo (m : Machine) (_argc : Nat) (_argv : List (List Char)) (_tf : Nat)
    (out : Console) : Option (Int × Console) :=
  let o1 := cprintf "Special kernel symbols:\n".toList out
  let o2 := cprintf ("  _start                  ".toList ++ hex8 m.sym_start ++
    " (phys)\n".toList) o1
  let o3 := cprintf ("  entry  ".toList ++ hex8 m.sym_entry ++ " (virt)  ".toList ++
    hex8 (sub32 m.sym_entry m.kernbase) ++ " (phys)\n".toList) o2
  let o4 := cprintf ("  etext  ".toList ++ hex8 m.sym_etext ++ " (virt)  ".toList ++
    hex8 (sub32 m.sym_etext m.kernbase) ++ " (phys)\n".toList) o3
  let o5 := cprintf ("  edata  ".toList ++ hex8 m.sym_edata ++ " (virt)  ".toList ++
    hex8 (sub32 m.sym_edata m.kernbase) ++ " (phys)\n".toList) o4
  let o6 := cprintf ("  end    ".toList ++ hex8 m.sym_end ++ " (virt)  ".toList ++
    hex8 (sub32 m.sym_end m.kernbase) ++ " (phys)\n".toList) o5
  let o7 := cprintf ("Kernel executable memory footprint: ".toList ++
    fmtInt (Int.tdiv (toInt32 (ROUNDUP (sub32 m.sym_end m.sym_entry) 1024)) 1024) ++
    "KB\n".toList) o6
  some (0, o7)

/-- The call `commands[i].func(argc, argv, tf)` for the functions of this file. -/
def callMon (m : Machine) (fuel : Nat) : MonFn → Handler
  | MonFn.mon_help => mon_help
  | MonFn.mon_kerninfo => mon_kerninfo m
  | MonFn.mon_show => mon_show
  | MonFn.mon_backtrace => mon_backtrace m fuel

/-! ## The command interpreter `runcmd` -/

/-- The separator characters: `#define WHITESPACE "\t\r\n "`. -/
def WHITESPACE : String := "\t\r\n "

/-- The size of the `argv` array: `#define MAXARGS 16`. -/
def MAXARGS : Nat := 16

/-- The loop `while (*buf && strchr(WHITESPACE, *buf)) *buf++ = 0;`. The buffer is held
as the bytes below the pointer (`done`) and the bytes from the pointer on; the result is
the buffer at the end of the loop, split at the new pointer. -/
def gobble : List Char → List Char → Option (List Char × List Char)
  | _, [] => none
  | done, c :: rest =>
    if c ≠ NUL ∧ strchr WHITESPACE c = true then gobble (done ++ [NUL]) rest
    else some (done, c :: rest)

/-- The loop `while (*buf && !strchr(WHITESPACE, *buf)) buf++;`. -/
def scanArg : List Char → List Char → Option (List Char × List Char)
  | _, [] => none
  | done, c :: rest =>
    if c ≠ NUL ∧ strchr WHITESPACE c = false then scanArg (done ++ [c]) rest
    else some (done, c :: rest)

/-- The array `char *argv[MAXARGS]`: an entry is `none` for the null pointer and
`some p` for the pointer `buf + p` into the command buffer. -/
abbrev Argv := List (Option Nat)

/-- The assignment `argv[i] = v`; a store outside the array has no defined result. -/
def writeArg (argv : Argv) (i : Nat) (v : Option Nat) : Option Argv :=
  if i < argv.length then some (argv.set i v) else none

/-- How the parsing loop of `runcmd` is left: through `return 0` after the
too-many-arguments message, or through `break` with `argc`, `argv` and the buffer. -/
inductive Parsed where
  | tooMany (buf : List Char)
  | args (argc : Nat) (argv : Argv) (buf : List Char)
  deriving DecidableEq, Repr

/-- The `while (1)` loop of `runcmd`, for at most `fuel` iterations, from the state
`argc`, `argv` and the buffer split at `buf`. -/
def parseLoop : Nat → Nat → Argv → List Char → List Char → Option Parsed
  | 0, _, _, _, _ => none
  | fuel + 1, argc, argv, done, rest =>
    match gobble done rest with
    | none => none
    | some (done1, rest1) =>
      match rest1 with
      | [] => none
      | c :: _ =>
        if c = NUL then some (Parsed.args argc argv (done1 ++ rest1))
        else if argc = MAXARGS - 1 then some (Parsed.tooMany (done1 ++ rest1))
        else
          match writeArg argv argc (some done1.length) with
          | none => none
          | some argv1 =>
            match scanArg done1 rest1 with
            | none => none
            | some (done2, rest2) => parseLoop fuel (argc + 1) argv1 done2 rest2

/-- The parsing part of `runcmd`: `argc = 0; argv[argc] = 0;`, then the loop. The stack
array starts with null entries. Every iteration that stays in the loop increments
`argc`, and the loop is left when `argc` is `MAXARGS-1`, so `MAXARGS` iterations are a
sufficient budget (`parse_isSome`). -/
def parse (buf : List Char) : Option Parsed :=
  match writeArg (List.replicate MAXARGS none) 0 none with
  | none => none
  | some argv => parseLoop MAXARGS 0 argv [] buf

/-- The string `argv[i]` read from the buffer; empty for a null or missing entry. -/
def argStr (buf : List Char) (argv : Argv) (i : Nat) : List Char :=
  match argv.get? i with
  | some (some p) => cstrAt buf p
  | _ => []

/-- The strings `argv[0], ..., argv[argc-1]`. -/
def argStrings (buf : List Char) (argc : Nat) (argv : Argv) : List (List Char) :=
  (List.range argc).map (argStr buf argv)

/-- The lookup loop of `runcmd` over the rest of the table, followed by the
unknown-command message: `argv0` is the string `argv[0]`. -/
def lookup {F : Type} (call : F → Handler) (argv0 : List Char) (argc : Nat)
    (argv : List (List Char)) (tf : Nat) : List (Command F) → Console →
    Option (Int × Console)
  | [], out =>
    some (0, cprintf ("Unknown command '".toList ++ argv0 ++ "'\n".toList) out)
  | c :: cs, out =>
    if strcmp argv0 c.name.toList = 0 then call c.func argc argv tf out
    else lookup call argv0 argc argv tf cs out

/-- The function `runcmd` over a table `cmds` whose function pointers are called through
`call`. -/
def runcmdWith {F : Type} (call : F → Handler) (cmds : List (Command F))
    (buf : List Char) (tf : Nat) (out : Console) : Option (Int × Console) :=
  match parse buf with
  | none => none
  | some (Parsed.tooMany _) =>
    some (0, cprintf ("Too many arguments (max ".toList ++ fmtInt (MAXARGS : Nat) ++
      ")\n".toList) out)
  | some (Parsed.args argc argv buf1) =>
    match writeArg argv argc none with
    | none => none
    | some argv1 =>
      if argc = 0 then some (0, out)
      else lookup call (argStr buf1 argv1 0) argc (argStrings buf1 argc argv1) tf cmds out

/-- The function `runcmd`: the interpreter over the table `commands`. -/
def runcmd (m : Machine) (fuel : Nat) (buf : List Char) (tf : Nat) (out : Console) :
    Option (Int × Console) :=
  runcmdWith (callMon m fuel) commands buf tf out

/-! ## The read-evaluate loop `monitor` -/

/-- One call `readline("K> ")` as the monitor sees it. The function `readline` of
`lib/readline.c` is not under `src/`, so its calls are a parameter of the loop: a call is
given by what it wrote to the console (the prompt and the echo of the typed characters) and
by its result, `none` for the null pointer and `some buf` for a command buffer. -/
structure Read where
  echo : List Char
  line : Option (List Char)
  deriving DecidableEq, Repr

/-- Where the `while (1)` loop of `monitor` stands once the given calls of `readline` are
used: it has left through `break`, with the console and the calls that were never made, or
it is in the next call of `readline`, with the console so far. -/
inductive MonitorEnd where
  | exited (out : Console) (unread : List Read)
  | reading (out : Console)
  deriving DecidableEq, Repr

/-- The `while (1)` loop of `monitor` over the successive calls of `readline`:
`buf = readline("K> "); if (buf != NULL) if (runcmd(buf, tf) < 0) break;`. The result is
`none` when a call of `runcmd` has no result. -/
def monitorLoop {F : Type} (call : F → Handler) (cmds : List (Command F)) (tf : Nat) :
    List Read → Console → Option MonitorEnd
  | [], out => some (MonitorEnd.reading out)
  | r :: rs, out =>
    match r.line with
    | none => monitorLoop call cmds tf rs (cprintf r.echo out)
    | some buf =>
      match runcmdWith call cmds buf tf (cprintf r.echo out) with
      | none => none
      | some (status, out1) =>
        if status < 0 then some (MonitorEnd.exited out1 rs)
        else monitorLoop call cmds tf rs out1

/-- The function `monitor` over a table `cmds`: the two lines of greeting, then the loop. -/
def monitorWith {F : Type} (call : F → Handler) (cmds : List (Command F)) (tf : Nat)
    (reads : List Read) (out : Console) : Option MonitorEnd :=
  let out1 := cprintf "Welcome to the JOS kernel monitor!\n".toList out
  let out2 := cprintf "Type 'help' for a list of commands.\n".toList out1
  monitorLoop call cmds tf reads out2

/-- The function `monitor`: the monitor over the table `commands`. -/
def monitor (m : Machine) (fuel : Nat) (tf : Nat) (reads : List Read) (out : Console) :
    Option MonitorEnd :=
  monitorWith (callMon m fuel) commands tf reads out

/-! ## Specification-side notions -/

/-- Whitespace in the sense of the tokenizer: tab, carriage return, newline, space. -/
def isWs (c : Char) : Bool := c == '\t' || c == '\r' || c == '\n' || c == ' '

/-- The text of a NUL-terminated buffer: the characters before the first NUL. -/
def content (buf : List Char) : List Char := buf.takeWhile (fun c => c != NUL)

/-- The maximal runs of non-whitespace characters of a text, left to right: the text is
cut at every whitespace character and the empty pieces are dropped. -/
def runs (s : List Char) : List (List Char) :=
  (s.splitOnP isWs).filter (fun t => !t.isEmpty)

/-- The token sequence `argv[0..argc-1]` that the parsing part of `runcmd` builds, when
it is left through `break`. -/
def tokens (buf : List Char) : Option (List (List Char)) :=
  match parse buf with
  | some (Parsed.args argc argv buf1) => some (argStrings buf1 argc argv)
  | _ => none

/-- A frame-pointer chain in memory `m`: every frame pointer of the list is non-zero, the
saved frame pointer `f[0]` of each frame is the next frame pointer of the list, and the
saved frame pointer of the last frame is zero. The empty list is not a chain. -/
def IsChain (m : Machine) : List Nat → Prop
  | [] => False
  | [f] => f ≠ 0 ∧ word m f 0 = 0
  | f :: g :: fs => f ≠ 0 ∧ word m f 0 = g ∧ IsChain m (g :: fs)

/-- Whether a list is a frame-pointer chain can be computed. -/
instance decIsChain (m : Machine) : (fs : List Nat) → Decidable (IsChain m fs)
  | [] => isFalse (fun h => h)
  | [f] => inferInstanceAs (Decidable (f ≠ 0 ∧ word m f 0 = 0))
  | f :: g :: fs =>
    have := decIsChain m (g :: fs)
    inferInstanceAs (Decidable (f ≠ 0 ∧ word m f 0 = g ∧ IsChain m (g :: fs)))

/-- What `mon_backtrace` prints for the frame at `f`: the header and the line with the
frame pointer, the return address `f[1]` and the words `f[2], ..., f[6]`. -/
def frameReport (m : Machine) (f : Nat) : List Char :=
  backtraceHeader ++
    frameLine f (word m f 1) (word m f 2) (word m f 3) (word m f 4) (word m f 5) (word m f 6)

/-- The text of the line that reports the frame at `f`, without its newline. -/
def frameText (m : Machine) (f : Nat) : List Char :=
  "  ebp ".toList ++ hex8 f ++ "  eip ".toList ++ hex8 (word m f 1) ++ "  args ".toList ++
    hex8 (word m f 2) ++ ' ' :: hex8 (word m f 3) ++ ' ' :: hex8 (word m f 4) ++
    ' ' :: hex8 (word m f 5) ++ ' ' :: hex8 (word m f 6)

/-- The text of the header line, without its newline. -/
def headerText : List Char := "Stack backtrace:".toList

/-- The lines of a console text: the pieces that end in a newline, without the newline. -/
def linesOf (s : List Char) : List (List Char) :=
  (s.splitOnP (fun c => c == '\n')).dropLast

/-- The `n`-th frame pointer met when following saved frame pointers from `p`. -/
def nthFrame (m : Machine) (n : Nat) (p : Nat) : Nat :=
  (fun q => word m q 0)^[n] p

/-- A machine with all symbols zero, memory `load` and frame pointer `ebp`. -/
def machineOf (load : Nat → Nat) (ebp : Nat) : Machine :=
  { load := load, ebp := ebp, sym_start := 0, sym_entry := 0, sym_etext := 0,
    sym_edata := 0, sym_end := 0, kernbase := 0 }

/-- A stack with the two frames 8 and 32: frame 8 saves frame pointer 32 and return
address `0xf0100a62`, frame 32 saves frame pointer 0 and return address `0xdeadbeef`. -/
def twoFrames : Machine :=
  machineOf (fun a => if a = 8 then 32 else if a = 12 then 0xf0100a62
    else if a = 16 then 1 else if a = 36 then 0xdeadbeef else 0) 8

/-- A stack with the single frame 8. -/
def oneFrame : Machine :=
  machineOf (fun a => if a = 12 then 0xf0100a62 else 0) 8

/-- A cyclic chain: frame 8 saves frame pointer 16 and frame 16 saves frame pointer 8. -/
def cyclic : Machine :=
  machineOf (fun a => if a = 8 then 16 else if a = 16 then 8 else 0) 8

/-- A machine whose frame pointer is zero and whose memory is filled with ones. -/
def noFrame : Machine := machineOf (fun _ => 1) 0

/-- A character of a token: neither NUL nor whitespace. -/
def isTok (c : Char) : Bool := c != NUL && !isWs c

/-- The buffer after parsing: every whitespace character before the first NUL is
replaced by NUL, everything else is kept. -/
def zap : List Char → List Char
  | [] => []
  | c :: r => if c = NUL then c :: r else if isWs c then NUL :: zap r else c :: zap r

/-- A command line of fifteen one-letter tokens. -/
def line15 : List Char := "a b c d e f g h i j k l m n o\x00".toList

/-- A command line of sixteen one-letter tokens. -/
def line16 : List Char := "a b c d e f g h i j k l m n o p\x00".toList

/-- A command line of seventeen tokens whose first token is `help`. -/
def line17 : List Char := "help b c d e f g h i j k l m n o p q\x00".toList

/-- The command line made of the given tokens with a single space between neighbours. -/
def joinSpaces : List (List Char) → List Char
  | [] => []
  | [t] => t
  | t :: u :: ts => t ++ ' ' :: joinSpaces (u :: ts)

/-- The start positions of the maximal runs of non-whitespace characters of a text whose
first character stands at position `off`: a position starts a run when its character is
not whitespace and the character before it is whitespace or there is none; `prev` tells
which of the two holds for the first character. -/
def startsFrom : Nat → Bool → List Char → List Nat
  | _, _, [] => []
  | off, prev, c :: s =>
    if (!isWs c && prev) = true then off :: startsFrom (off + 1) (isWs c) s
    else startsFrom (off + 1) (isWs c) s

/-- The start positions of the maximal runs of non-whitespace characters of a text. -/
def runStarts (s : List Char) : List Nat := startsFrom 0 true s

/-- The states in which the head of the `while (1)` loop of `runcmd` is reached on the
buffer `buf`: the values of `argc` and `argv` and the buffer split at the pointer. The loop
is entered with `argc = 0` after `argv[0] = 0`; an iteration that neither breaks nor
returns stores the pointer in `argv[argc]`, increments `argc` and scans past the argument.
The stores are written as they stand in the source, without a test of the index. -/
inductive LoopHead (buf : List Char) : Nat → Argv → List Char → List Char → Prop where
  | entry : LoopHead buf 0 ((List.replicate MAXARGS none).set 0 none) [] buf
  | next {argc : Nat} {argv : Argv} {done rest done1 r1 done2 rest2 : List Char} {c : Char} :
      LoopHead buf argc argv done rest →
      gobble done rest = some (done1, c :: r1) → c ≠ NUL → argc ≠ MAXARGS - 1 →
      scanArg done1 (c :: r1) = some (done2, rest2) →
      LoopHead buf (argc + 1) (argv.set argc (some done1.length)) done2 rest2

/-- A meaning of function pointers for examples: the pointer is the status that the
function returns, and the function leaves the console as it is. -/
def statusCall (status : Int) : Handler := fun _ _ _ out => some (status, out)

/-- A table for examples: `quit` returns -1, `nop` returns 0 and `pos` returns 5. -/
def quitTable : List (Command Int) :=
  [⟨"quit", "Leave the monitor", -1⟩, ⟨"nop", "Do nothing", 0⟩, ⟨"pos", "Return five", 5⟩]

/-- Five calls of `readline` for examples: a null read, then the lines `nop`, `pos`, `quit`
and `nop`, each with the prompt as what was written to the console. -/
def fiveReads : List Read :=
  [⟨"K> ".toList, none⟩, ⟨"K> ".toList, some "nop\x00".toList⟩,
   ⟨"K> ".toList, some "pos 1\x00".toList⟩, ⟨"K> ".toList, some "quit\x00".toList⟩,
   ⟨"K> ".toList, some "nop\x00".toList⟩]

/-- The frame pointers of the frames that the walk of `mon_backtrace` from `p` visits in
its first `n` iterations: `p`, then the saved frame pointer of each frame in turn, up to a
zero frame pointer, which ends the walk and is not visited. -/
def visited (m : Machine) : Nat → Nat → List Nat
  | 0, _ => []
  | n + 1, p => if p = 0 then [] else p :: visited m n (word m p 0)

/-! ## Verified properties -/

/-! ### Frame walker -/

theorem word_args (m : Machine) (f k : Nat) :
    word m ((f + 4 * 2) % 2 ^ 32) k = word m f (k + 2) := by
  unfold word
  have h : ((f + 4 * 2) % 2 ^ 32 + 4 * k) % 2 ^ 32 = (f + 4 * (k + 2)) % 2 ^ 32 := by omega
  rw [h]

theorem backtraceBody_eq (m : Machine) (f : Nat) (out : Console) :
    backtraceBody m f out = out ++ frameReport m f := by
  simp only [backtraceBody, cprintf, frameReport, word_args, List.append_assoc]

theorem backtraceLoop_chain (m : Machine) :
    ∀ (fs : List Nat) (f fuel : Nat) (out : Console), IsChain m (f :: fs) →
      (f :: fs).length < fuel →
      backtraceLoop m fuel f out = some (out ++ ((f :: fs).map (frameReport m)).flatten) := by
  intro fs
  induction fs with
  | nil =>
    intro f fuel out hc hf
    obtain ⟨hne, hz⟩ := hc
    obtain ⟨k, rfl⟩ : ∃ k, fuel = k + 2 := ⟨fuel - 2, by simp at hf; omega⟩
    simp [backtraceLoop, hne, hz, backtraceBody_eq]
  | cons g gs ih =>
    intro f fuel out hc hf
    obtain ⟨hne, hg, hrest⟩ := hc
    obtain ⟨k, rfl⟩ : ∃ k, fuel = k + 1 := ⟨fuel - 1, by simp at hf; omega⟩
    have hk : (g :: gs).length < k := by simp at hf ⊢; omega
    simp only [backtraceLoop, hne, if_false, hg, backtraceBody_eq]
    rw [ih g k _ hrest hk]
    simp [List.append_assoc]

theorem mon_backtrace_chain (m : Machine) (fs : List Nat) (fuel argc : Nat)
    (argv : List (List Char)) (tf : Nat) (out : Console) (hchain : IsChain m fs)
    (hebp : fs.head? = some (m.ebp % 2 ^ 32)) (hfuel : fs.length < fuel) :
    mon_backtrace m fuel argc argv tf out =
      some (0, out ++ (fs.map (frameReport m)).flatten) := by
  cases fs with
  | nil => exact absurd hchain (by simp [IsChain])
  | cons f gs =>
    have hf : f = m.ebp % 2 ^ 32 := by simpa using hebp
    unfold mon_backtrace
    rw [← hf, backtraceLoop_chain m gs f fuel out hchain hfuel]

/-- C1: on a frame-pointer chain `f0, ..., f(N-1)` that starts at the frame pointer read
by `mon_backtrace` and ends with a zero saved frame pointer, `mon_backtrace` returns
(any budget above `N` loop tests is enough), its status is 0, and what it has printed is
the reports of exactly the frames `f0, ..., f(N-1)` in this order, the report of `f(i)`
showing the frame pointer `f(i)` and the return address stored at `f(i)[1]`. -/
theorem C1_backtrace_walks_chain (m : Machine) (fs : List Nat) (fuel argc : Nat)
    (argv : List (List Char)) (tf : Nat) (out : Console) (hchain : IsChain m fs)
    (hebp : fs.head? = some (m.ebp % 2 ^ 32)) (hfuel : fs.length < fuel) :
    mon_backtrace m fuel argc argv tf out =
      some (0, out ++ (fs.map (fun f => backtraceHeader ++
        frameLine f (word m f 1) (word m f 2) (word m f 3) (word m f 4) (word m f 5)
          (word m f 6))).flatten) :=
  mon_backtrace_chain m fs fuel argc argv tf out hchain hebp hfuel

/-- Witness of C1 on the two-frame stack `twoFrames`. -/
theorem C1_backtrace_walks_chain_witness :
    IsChain twoFrames [8, 32] ∧
    mon_backtrace twoFrames 3 0 [] 0 [] =
      some (0, ("Stack backtrace:\n" ++
        "  ebp 00000008  eip f0100a62  args 00000001 00000000 00000000 00000000 00000000\n" ++
        "Stack backtrace:\n" ++
        "  ebp 00000020  eip deadbeef  args 00000000 00000000 00000000 00000000 00000000\n"
        ).toList) :=
  ⟨by decide,
   (C1_backtrace_walks_chain twoFrames [8, 32] 3 0 [] 0 [] (by decide) (by decide)
      (by decide)).trans (by rfl)⟩

/-- C9: when the frame pointer read by `mon_backtrace` is zero, the call returns 0 after the
first test of the loop condition and the console is unchanged: neither a header nor a frame
line is printed. The result is the same for every memory, so no word of memory is read. -/
theorem C9_backtrace_zero_frame_pointer (m : Machine) (fuel argc : Nat)
    (argv : List (List Char)) (tf : Nat) (out : Console) (hebp : m.ebp = 0) :
    mon_backtrace m (fuel + 1) argc argv tf out = some (0, out) := by
  simp [mon_backtrace, backtraceLoop, hebp]

/-- Witness of C9 on the machine `noFrame`. -/
theorem C9_backtrace_zero_frame_pointer_witness :
    noFrame.ebp = 0 ∧ mon_backtrace noFrame 1 0 [] 0 [] = some (0, []) :=
  ⟨rfl, C9_backtrace_zero_frame_pointer noFrame 0 0 [] 0 [] rfl⟩

theorem backtraceLoop_some_of_nthFrame (m : Machine) :
    ∀ (n p : Nat) (out : Console), nthFrame m n p = 0 →
      ∃ out1, backtraceLoop m (n + 1) p out = some out1 := by
  intro n
  induction n with
  | zero =>
    intro p out h
    have hp : p = 0 := by simpa [nthFrame] using h
    exact ⟨out, by simp [backtraceLoop, hp]⟩
  | succ n ih =>
    intro p out h
    by_cases hp : p = 0
    · exact ⟨out, by simp [backtraceLoop, hp]⟩
    · have h1 : nthFrame m n (word m p 0) = 0 := by
        simpa [nthFrame, Function.iterate_succ_apply] using h
      obtain ⟨out1, h2⟩ := ih (word m p 0) (backtraceBody m p out) h1
      exact ⟨out1, by rw [backtraceLoop, if_neg hp, h2]⟩

theorem nthFrame_of_backtraceLoop_some (m : Machine) :
    ∀ (fuel p : Nat) (out out1 : Console), backtraceLoop m fuel p out = some out1 →
      ∃ n, nthFrame m n p = 0 := by
  intro fuel
  induction fuel with
  | zero => intro p out out1 h; simp [backtraceLoop] at h
  | succ k ih =>
    intro p out out1 h
    by_cases hp : p = 0
    · exact ⟨0, by simp [nthFrame, hp]⟩
    · rw [backtraceLoop, if_neg hp] at h
      obtain ⟨n, hn⟩ := ih _ _ _ h
      exact ⟨n + 1, by simpa [nthFrame, Function.iterate_succ_apply] using hn⟩

theorem cyclic_loop_none :
    ∀ (fuel : Nat) (out : Console),
      backtraceLoop cyclic fuel 8 out = none ∧ backtraceLoop cyclic fuel 16 out = none := by
  intro fuel
  induction fuel with
  | zero => intro out; simp [backtraceLoop]
  | succ k ih =>
    intro out
    have h8 : word cyclic 8 0 = 16 := by decide
    have h16 : word cyclic 16 0 = 8 := by decide
    constructor
    · rw [backtraceLoop, if_neg (by decide), h8]; exact (ih _).2
    · rw [backtraceLoop, if_neg (by decide), h16]; exact (ih _).1

theorem backtraceBody_length (m : Machine) (p : Nat) (out : Console) :
    (backtraceBody m p out).length = out.length + 97 := by
  simp [backtraceBody, cprintf, backtraceHeader, frameLine, hex8]

theorem cyclic_steps_grow :
    ∀ (n : Nat) (out : Console),
      out.length + 97 * n = (backtraceSteps cyclic n 8 out).2.length ∧
      out.length + 97 * n = (backtraceSteps cyclic n 16 out).2.length := by
  intro n
  induction n with
  | zero => intro out; simp [backtraceSteps]
  | succ k ih =>
    intro out
    have h8 : word cyclic 8 0 = 16 := by decide
    have h16 : word cyclic 16 0 = 8 := by decide
    constructor
    · rw [backtraceSteps, if_neg (by decide), h8, ← (ih _).2, backtraceBody_length]; ring
    · rw [backtraceSteps, if_neg (by decide), h16, ← (ih _).1, backtraceBody_length]; ring

/-- C4, counterexample: on the cyclic chain `cyclic` (frame 8 saves frame pointer 16, frame
16 saves frame pointer 8) `mon_backtrace` does not return within any budget, and after `n`
iterations of its loop it has printed `n` frame reports of 97 characters each: there is no
maximum frame count at which the output is cut. -/
theorem C4_cyclic_chain_never_ends :
    word cyclic 8 0 = 16 ∧ word cyclic 16 0 = 8 ∧
    (∀ fuel, mon_backtrace cyclic fuel 0 [] 0 [] = none) ∧
    (∀ n, (backtraceSteps cyclic n (cyclic.ebp % 2 ^ 32) []).2.length = 97 * n) := by
  refine ⟨by decide, by decide, ?_, ?_⟩
  · intro fuel
    have h : cyclic.ebp % 2 ^ 32 = 8 := by decide
    unfold mon_backtrace
    rw [h, (cyclic_loop_none fuel []).1]
  · intro n
    have h : cyclic.ebp % 2 ^ 32 = 8 := by decide
    rw [h, ← (cyclic_steps_grow n []).1]
    simp

theorem backtraceSteps_console (m : Machine) :
    ∀ (n p : Nat) (out : Console),
      (backtraceSteps m n p out).2 = out ++ ((visited m n p).map (frameReport m)).flatten := by
  intro n
  induction n with
  | zero => intro p out; simp [backtraceSteps, visited]
  | succ n ih =>
    intro p out
    by_cases hp : p = 0
    · simp [backtraceSteps, visited, hp]
    · rw [backtraceSteps, if_neg hp, ih, backtraceBody_eq, visited, if_neg hp]
      simp [List.append_assoc]

theorem backtraceLoop_eq_steps (m : Machine) :
    ∀ (n p : Nat) (out : Console),
      backtraceLoop m (n + 1) p out =
        if (backtraceSteps m n p out).1 = 0 then some (backtraceSteps m n p out).2
        else none := by
  intro n
  induction n with
  | zero =>
    intro p out
    by_cases hp : p = 0
    · simp [backtraceLoop, backtraceSteps, hp]
    · simp [backtraceLoop, backtraceSteps, hp]
  | succ n ih =>
    intro p out
    by_cases hp : p = 0
    · simp [backtraceLoop, backtraceSteps, hp]
    · rw [backtraceLoop, if_neg hp, ih, backtraceSteps, if_neg hp]

theorem backtraceLoop_eq_visited (m : Machine) :
    ∀ (fuel p : Nat) (out : Console),
      backtraceLoop m fuel p out =
        if (visited m fuel p).length < fuel then
          some (out ++ ((visited m fuel p).map (frameReport m)).flatten)
        else none := by
  intro fuel
  induction fuel with
  | zero => intro p out; simp [backtraceLoop]
  | succ k ih =>
    intro p out
    by_cases hp : p = 0
    · simp [backtraceLoop, visited, hp]
    · rw [backtraceLoop, if_neg hp, ih, backtraceBody_eq, visited, if_neg hp]
      by_cases hl : (visited m k (word m p 0)).length < k
      · rw [if_pos hl, if_pos (by simpa using hl)]
        simp [List.append_assoc]
      · rw [if_neg hl, if_neg (by simpa using hl)]

theorem nthFrame_succ (m : Machine) (n p : Nat) :
    nthFrame m (n + 1) p = nthFrame m n (word m p 0) := by
  simp [nthFrame, Function.iterate_succ_apply]

theorem visited_of_never_zero (m : Machine) :
    ∀ (n p : Nat), (∀ i, i < n → nthFrame m i p ≠ 0) →
      visited m n p = (List.range n).map (fun i => nthFrame m i p) := by
  intro n
  induction n with
  | zero => intro p _; rfl
  | succ n ih =>
    intro p h
    have hp : p ≠ 0 := by simpa [nthFrame] using h 0 (Nat.succ_pos n)
    rw [visited, if_neg hp, ih (word m p 0) (fun i hi => by
      rw [← nthFrame_succ]; exact h (i + 1) (by omega)), List.range_succ_eq_map]
    simp [nthFrame_succ, nthFrame, Function.comp_def]

theorem backtraceSteps_fst_of_never_zero (m : Machine) :
    ∀ (n p : Nat) (out : Console), (∀ i, i < n → nthFrame m i p ≠ 0) →
      (backtraceSteps m n p out).1 = nthFrame m n p := by
  intro n
  induction n with
  | zero => intro p out _; rfl
  | succ n ih =>
    intro p out h
    have hp : p ≠ 0 := by simpa [nthFrame] using h 0 (Nat.succ_pos n)
    rw [backtraceSteps, if_neg hp, ih _ _ (fun i hi => by
      rw [← nthFrame_succ]; exact h (i + 1) (by omega)), nthFrame_succ]

theorem frameReport_length (m : Machine) (f : Nat) : (frameReport m f).length = 97 := by
  simp [frameReport, backtraceHeader, frameLine, hex8]

theorem reports_length (m : Machine) : ∀ (fs : List Nat),
    ((fs.map (frameReport m)).flatten).length = 97 * fs.length := by
  intro fs
  induction fs with
  | nil => rfl
  | cons f gs ih =>
    rw [List.map_cons, List.flatten_cons, List.length_append, ih, frameReport_length,
      List.length_cons]
    ring

theorem cyclic_never_zero : ∀ (n : Nat),
    (nthFrame cyclic n 8 = 8 ∨ nthFrame cyclic n 8 = 16) ∧
    (nthFrame cyclic n 16 = 8 ∨ nthFrame cyclic n 16 = 16) := by
  intro n
  induction n with
  | zero => exact ⟨Or.inl rfl, Or.inr rfl⟩
  | succ n ih =>
    have h8 : word cyclic 8 0 = 16 := by decide
    have h16 : word cyclic 16 0 = 8 := by decide
    rw [nthFrame_succ, nthFrame_succ, h8, h16]
    exact ⟨ih.2, ih.1⟩

theorem visited_of_first_zero (m : Machine) :
    ∀ (n p fuel : Nat), (∀ i, i < n → nthFrame m i p ≠ 0) → nthFrame m n p = 0 → n < fuel →
      visited m fuel p = (List.range n).map (fun i => nthFrame m i p) := by
  intro n
  induction n with
  | zero =>
    intro p fuel _ h0 hf
    have hp : p = 0 := by simpa [nthFrame] using h0
    obtain ⟨k, rfl⟩ : ∃ k, fuel = k + 1 := ⟨fuel - 1, by omega⟩
    simp [visited, hp]
  | succ n ih =>
    intro p fuel h h0 hf
    have hp : p ≠ 0 := by simpa [nthFrame] using h 0 (Nat.succ_pos n)
    obtain ⟨k, rfl⟩ : ∃ k, fuel = k + 1 := ⟨fuel - 1, by omega⟩
    rw [visited, if_neg hp, ih (word m p 0) k (fun i hi => by
      rw [← nthFrame_succ]; exact h (i + 1) (by omega)) (by rw [← nthFrame_succ]; exact h0)
      (by omega), List.range_succ_eq_map]
    simp [nthFrame_succ, nthFrame, Function.comp_def]

/-- C4, as amended: `mon_backtrace` has no maximum frame count. For every memory whose
words can all be read (a read that faults is outside this statement) and every starting
frame pointer: (1) for every budget, the call has returned within the budget exactly when the
walk has met a zero frame pointer within it, and then the status is 0 and the console holds
the report of every frame visited, none left out; (2) so the call returns exactly when
following the saved frame pointers from the start reaches zero after finitely many links;
(3) when zero is first reached after `n` links, the `n` frames on the way are all reported,
however large `n` is; (4) the loop run for `n+1` tests of its condition has ended exactly
when the frame pointer after `n` iterations is zero, and its console is the console after
these iterations; (5) when zero is never reached, as on a cyclic chain, the call never
returns, and after `n` iterations the frame pointer is the `n`-th of the chain and the
console has grown by the reports of the first `n` frames, 97 characters each, for every
`n`. -/
theorem C4_backtrace_no_depth_guard (m : Machine) (argc : Nat)
    (argv : List (List Char)) (tf : Nat) (out : Console) :
    (∀ fuel, mon_backtrace m fuel argc argv tf out =
      if (visited m fuel (m.ebp % 2 ^ 32)).length < fuel then
        some (0, out ++ ((visited m fuel (m.ebp % 2 ^ 32)).map (frameReport m)).flatten)
      else none) ∧
    ((∃ fuel out1, mon_backtrace m fuel argc argv tf out = some (0, out1)) ↔
      ∃ n, nthFrame m n (m.ebp % 2 ^ 32) = 0) ∧
    (∀ n fuel, (∀ i, i < n → nthFrame m i (m.ebp % 2 ^ 32) ≠ 0) →
      nthFrame m n (m.ebp % 2 ^ 32) = 0 → n < fuel →
      mon_backtrace m fuel argc argv tf out =
        some (0, out ++ (((List.range n).map (fun i => nthFrame m i (m.ebp % 2 ^ 32))).map
          (frameReport m)).flatten)) ∧
    (∀ n, backtraceLoop m (n + 1) (m.ebp % 2 ^ 32) out =
      if (backtraceSteps m n (m.ebp % 2 ^ 32) out).1 = 0 then
        some (backtraceSteps m n (m.ebp % 2 ^ 32) out).2
      else none) ∧
    ((∀ n, nthFrame m n (m.ebp % 2 ^ 32) ≠ 0) →
      (∀ fuel, mon_backtrace m fuel argc argv tf out = none) ∧
      ∀ n, (backtraceSteps m n (m.ebp % 2 ^ 32) out).1 = nthFrame m n (m.ebp % 2 ^ 32) ∧
        (backtraceSteps m n (m.ebp % 2 ^ 32) out).2 =
          out ++ (((List.range n).map (fun i => nthFrame m i (m.ebp % 2 ^ 32))).map
            (frameReport m)).flatten ∧
        (backtraceSteps m n (m.ebp % 2 ^ 32) out).2.length = out.length + 97 * n) := by
  have hres : ∀ fuel, mon_backtrace m fuel argc argv tf out =
      if (visited m fuel (m.ebp % 2 ^ 32)).length < fuel then
        some (0, out ++ ((visited m fuel (m.ebp % 2 ^ 32)).map (frameReport m)).flatten)
      else none := by
    intro fuel
    unfold mon_backtrace
    rw [backtraceLoop_eq_visited]
    by_cases hl : (visited m fuel (m.ebp % 2 ^ 32)).length < fuel
    · rw [if_pos hl, if_pos hl]
    · rw [if_neg hl, if_neg hl]
  refine ⟨hres, ?_, ?_, fun n => backtraceLoop_eq_steps m n _ out, ?_⟩
  · constructor
    · rintro ⟨fuel, out1, h⟩
      unfold mon_backtrace at h
      cases hl : backtraceLoop m fuel (m.ebp % 2 ^ 32) out with
      | none => rw [hl] at h; cases h
      | some o => exact nthFrame_of_backtraceLoop_some m fuel _ out o hl
    · rintro ⟨n, hn⟩
      obtain ⟨out1, h1⟩ := backtraceLoop_some_of_nthFrame m n _ out hn
      exact ⟨n + 1, out1, by unfold mon_backtrace; rw [h1]⟩
  · intro n fuel hne h0 hf
    have hv := visited_of_first_zero m n _ fuel hne h0 hf
    rw [hres fuel, hv, if_pos (by simpa using hf)]
  · intro hne
    constructor
    · intro fuel
      rw [hres fuel, visited_of_never_zero m fuel _ (fun i _ => hne i), if_neg (by simp)]
    · intro n
      have hc : (backtraceSteps m n (m.ebp % 2 ^ 32) out).2 =
          out ++ (((List.range n).map (fun i => nthFrame m i (m.ebp % 2 ^ 32))).map
            (frameReport m)).flatten := by
        rw [backtraceSteps_console, visited_of_never_zero m n _ (fun i _ => hne i)]
      refine ⟨backtraceSteps_fst_of_never_zero m n _ out (fun i _ => hne i), hc, ?_⟩
      rw [hc, List.length_append, reports_length]
      simp

/-- Witness of C4 as amended: on the cyclic chain `cyclic` zero is never reached, the call
never returns, and after two iterations the console holds the reports of the frames 8 and
16; on `twoFrames` zero is reached after two links and both frames are reported. -/
theorem C4_backtrace_no_depth_guard_witness :
    (∀ n, nthFrame cyclic n (cyclic.ebp % 2 ^ 32) ≠ 0) ∧
    (∀ fuel, mon_backtrace cyclic fuel 0 [] 0 [] = none) ∧
    (backtraceSteps cyclic 2 (cyclic.ebp % 2 ^ 32) []).2 = ("Stack backtrace:\n" ++
      "  ebp 00000008  eip 00000000  args 00000008 00000000 00000000 00000000 00000000\n" ++
      "Stack backtrace:\n" ++
      "  ebp 00000010  eip 00000000  args 00000000 00000000 00000000 00000000 00000000\n"
      ).toList ∧
    mon_backtrace twoFrames 7 0 [] 0 [] = some (0, ("Stack backtrace:\n" ++
      "  ebp 00000008  eip f0100a62  args 00000001 00000000 00000000 00000000 00000000\n" ++
      "Stack backtrace:\n" ++
      "  ebp 00000020  eip deadbeef  args 00000000 00000000 00000000 00000000 00000000\n"
      ).toList) := by
  have hne : ∀ n, nthFrame cyclic n (cyclic.ebp % 2 ^ 32) ≠ 0 := by
    intro n
    have h : cyclic.ebp % 2 ^ 32 = 8 := by decide
    rw [h]
    rcases (cyclic_never_zero n).1 with h1 | h1 <;> rw [h1] <;> decide
  refine ⟨hne, ((C4_backtrace_no_depth_guard cyclic 0 [] 0 []).2.2.2.2 hne).1, ?_, ?_⟩
  · have h := (((C4_backtrace_no_depth_guard cyclic 0 [] 0 []).2.2.2.2 hne).2 2).2.1
    have e : (List.range 2).map (fun i => nthFrame cyclic i (cyclic.ebp % 2 ^ 32)) =
        [8, 16] := by decide
    rw [e] at h
    exact h.trans (by decide!)
  · have h := (C4_backtrace_no_depth_guard twoFrames 0 [] 0 []).2.2.1 2 7 (by decide)
      (by decide) (by decide)
    have e : (List.range 2).map (fun i => nthFrame twoFrames i (twoFrames.ebp % 2 ^ 32)) =
        [8, 32] := by decide
    rw [e] at h
    exact h.trans (by decide!)

theorem hexDigit_ne_newline (x : Nat) : hexDigit (x % 16) ≠ '\n' := by
  have h : ∀ d < 16, hexDigit d ≠ '\n' := by decide
  exact h _ (Nat.mod_lt _ (by decide))

theorem hex8_length (w : Nat) : (hex8 w).length = 8 := by
  simp [hex8]

theorem hex8_no_newline (w : Nat) : ∀ c ∈ hex8 w, c ≠ '\n' := by
  intro c hc
  simp only [hex8, List.mem_map] at hc
  obtain ⟨s, _, rfl⟩ := hc
  exact hexDigit_ne_newline _

theorem frameText_no_newline (m : Machine) (f : Nat) : ∀ c ∈ frameText m f, c ≠ '\n' := by
  intro c hc
  simp only [frameText, List.mem_append, List.mem_cons] at hc
  have h1 : ∀ c ∈ "  ebp ".toList, c ≠ '\n' := by decide
  have h2 : ∀ c ∈ "  eip ".toList, c ≠ '\n' := by decide
  have h3 : ∀ c ∈ "  args ".toList, c ≠ '\n' := by decide
  have h4 : ' ' ≠ '\n' := by decide
  casesm* _ ∨ _
  all_goals first
    | exact h1 c (by assumption)
    | exact h2 c (by assumption)
    | exact h3 c (by assumption)
    | exact hex8_no_newline _ c (by assumption)
    | (rename_i h; exact h ▸ h4)

theorem frameReport_eq (m : Machine) (f : Nat) :
    frameReport m f = headerText ++ '\n' :: (frameText m f ++ ['\n']) := by
  simp [frameReport, backtraceHeader, frameLine, frameText, headerText]

theorem frameText_ne_headerText (m : Machine) (f : Nat) : frameText m f ≠ headerText := by
  intro h
  have h1 := congrArg List.head? h
  simp [frameText, headerText] at h1

theorem linesOf_nil : linesOf [] = [] := by
  simp [linesOf, List.splitOnP_nil]

theorem linesOf_line (l rest : List Char) (hl : ∀ c ∈ l, c ≠ '\n') :
    linesOf (l ++ '\n' :: rest) = l :: linesOf rest := by
  unfold linesOf
  rw [List.splitOnP_first _ l (by simpa using hl) '\n' (by decide),
    List.dropLast_cons_of_ne_nil (List.splitOnP_ne_nil _ _)]

theorem linesOf_reports (m : Machine) (fs : List Nat) :
    linesOf ((fs.map (frameReport m)).flatten) =
      (fs.map (fun f => [headerText, frameText m f])).flatten := by
  induction fs with
  | nil => simp [linesOf_nil]
  | cons f gs ih =>
    have hh : ∀ c ∈ headerText, c ≠ '\n' := by decide
    simp only [List.map_cons, List.flatten_cons, frameReport_eq, List.append_assoc,
      List.cons_append, List.nil_append]
    rw [linesOf_line _ _ hh, linesOf_line _ _ (frameText_no_newline m f), ih]

theorem filter_reports (m : Machine) (fs : List Nat) :
    ((fs.map (fun f => [headerText, frameText m f])).flatten).filter
      (fun l => decide (l ≠ headerText)) = fs.map (frameText m) := by
  induction fs with
  | nil => simp
  | cons f gs ih =>
    simp only [List.map_cons, List.flatten_cons, List.cons_append, List.nil_append]
    rw [List.filter_cons_of_neg (by simp), List.filter_cons_of_pos
      (by simpa using frameText_ne_headerText m f), ih]

/-- C10, counterexample: on the stack `oneFrame`, whose chain is the single frame 8,
`mon_backtrace` prints two lines, the header line and the line of the frame, not one. -/
theorem C10_one_frame_two_lines :
    IsChain oneFrame [8] ∧ oneFrame.ebp % 2 ^ 32 = 8 ∧
    mon_backtrace oneFrame 2 0 [] 0 [] = some (0, ("Stack backtrace:\n" ++
      "  ebp 00000008  eip f0100a62  args 00000000 00000000 00000000 00000000 00000000\n"
      ).toList) ∧
    linesOf ("Stack backtrace:\n" ++
      "  ebp 00000008  eip f0100a62  args 00000000 00000000 00000000 00000000 00000000\n"
      ).toList = ["Stack backtrace:".toList,
      "  ebp 00000008  eip f0100a62  args 00000000 00000000 00000000 00000000 00000000".toList] ∧
    (linesOf ("Stack backtrace:\n" ++
      "  ebp 00000008  eip f0100a62  args 00000000 00000000 00000000 00000000 00000000\n"
      ).toList).length ≠ [8].length := by
  refine ⟨by decide, by decide, by rfl, by rfl, by decide⟩

/-- C10, as amended: for a zero-terminated chain of `N` frames, the lines printed by
`mon_backtrace` other than `Stack backtrace:` header lines are exactly `N` lines, one per
frame and in chain order; the line of a frame holds its frame pointer, its return address
and five argument words, each as eight hexadecimal digits. -/
theorem C10_backtrace_frame_lines (m : Machine) (fs : List Nat) (fuel argc : Nat)
    (argv : List (List Char)) (tf : Nat) (out : Console) (hchain : IsChain m fs)
    (hebp : fs.head? = some (m.ebp % 2 ^ 32)) (hfuel : fs.length < fuel) :
    ∃ text, mon_backtrace m fuel argc argv tf out = some (0, out ++ text) ∧
      (linesOf text).filter (fun l => decide (l ≠ "Stack backtrace:".toList)) =
        fs.map (fun f =>
          "  ebp ".toList ++ hex8 f ++ "  eip ".toList ++ hex8 (word m f 1) ++
            "  args ".toList ++ hex8 (word m f 2) ++ ' ' :: hex8 (word m f 3) ++
            ' ' :: hex8 (word m f 4) ++ ' ' :: hex8 (word m f 5) ++
            ' ' :: hex8 (word m f 6)) ∧
      ∀ w, (hex8 w).length = 8 :=
  ⟨_, mon_backtrace_chain m fs fuel argc argv tf out hchain hebp hfuel,
    (congrArg _ (linesOf_reports m fs)).trans (filter_reports m fs), hex8_length⟩

/-- Witness of C10 on the two-frame stack `twoFrames`. -/
theorem C10_backtrace_frame_lines_witness :
    IsChain twoFrames [8, 32] ∧
    ∃ text, mon_backtrace twoFrames 3 0 [] 0 [] = some (0, [] ++ text) ∧
      (linesOf text).filter (fun l => decide (l ≠ "Stack backtrace:".toList)) =
        [8, 32].map (fun f =>
          "  ebp ".toList ++ hex8 f ++ "  eip ".toList ++ hex8 (word twoFrames f 1) ++
            "  args ".toList ++ hex8 (word twoFrames f 2) ++
            ' ' :: hex8 (word twoFrames f 3) ++
            ' ' :: hex8 (word twoFrames f 4) ++ ' ' :: hex8 (word twoFrames f 5) ++
            ' ' :: hex8 (word twoFrames f 6)) ∧
      ∀ w, (hex8 w).length = 8 :=
  ⟨by decide,
   C10_backtrace_frame_lines twoFrames [8, 32] 3 0 [] 0 [] (by decide) (by decide)
     (by decide)⟩

/-! ### Tokenizer -/

theorem strchr_ws (c : Char) : strchr WHITESPACE c = isWs c := by
  simp only [strchr, WHITESPACE, isWs]
  rw [Bool.eq_iff_iff]
  simp [Bool.or_assoc]

theorem isWs_NUL : isWs NUL = false := by decide

theorem isWs_ne_NUL {c : Char} (h : isWs c = true) : c ≠ NUL := by
  intro hc
  rw [hc, isWs_NUL] at h
  cases h

theorem isTok_NUL : isTok NUL = false := by decide

theorem isTok_iff (c : Char) : isTok c = true ↔ c ≠ NUL ∧ isWs c = false := by
  simp [isTok]

theorem gobble_eq : ∀ (rest done : List Char), NUL ∈ rest →
    gobble done rest =
      some (done ++ List.replicate (rest.takeWhile isWs).length NUL, rest.dropWhile isWs) := by
  intro rest
  induction rest with
  | nil => intro done h; simp at h
  | cons c r ih =>
    intro done h
    by_cases hw : isWs c = true
    · have hne : c ≠ NUL := isWs_ne_NUL hw
      have hr : NUL ∈ r := by
        rcases List.mem_cons.1 h with h | h
        · exact absurd h.symm hne
        · exact h
      rw [gobble, if_pos ⟨hne, by rw [strchr_ws]; exact hw⟩, ih _ hr]
      simp [List.takeWhile_cons, List.dropWhile_cons, hw, List.replicate_succ]
    · have hw2 : isWs c = false := by simpa using hw
      rw [gobble, if_neg (by rw [strchr_ws]; simp [hw2])]
      simp [List.takeWhile_cons, List.dropWhile_cons, hw2]

theorem scanArg_eq : ∀ (rest done : List Char), NUL ∈ rest →
    scanArg done rest = some (done ++ rest.takeWhile isTok, rest.dropWhile isTok) := by
  intro rest
  induction rest with
  | nil => intro done h; simp at h
  | cons c r ih =>
    intro done h
    by_cases ht : isTok c = true
    · obtain ⟨hne, hw⟩ := (isTok_iff c).1 ht
      have hr : NUL ∈ r := by
        rcases List.mem_cons.1 h with h | h
        · exact absurd h.symm hne
        · exact h
      rw [scanArg, if_pos ⟨hne, by rw [strchr_ws]; exact hw⟩, ih _ hr]
      simp [List.takeWhile_cons, List.dropWhile_cons, ht]
    · have ht2 : isTok c = false := by simpa using ht
      have hc : ¬ (c ≠ NUL ∧ strchr WHITESPACE c = false) := by
        rw [strchr_ws]
        intro hh
        exact ht ((isTok_iff c).2 hh)
      rw [scanArg, if_neg hc]
      simp [List.takeWhile_cons, List.dropWhile_cons, ht2]

theorem mem_dropWhile_NUL (p : Char → Bool) (hp : p NUL = false) :
    ∀ (l : List Char), NUL ∈ l → NUL ∈ l.dropWhile p := by
  intro l
  induction l with
  | nil => intro h; simp at h
  | cons c r ih =>
    intro h
    by_cases hc : p c = true
    · have hne : c ≠ NUL := by
        intro e
        rw [e, hp] at hc
        cases hc
      rw [List.dropWhile_cons_of_pos hc]
      rcases List.mem_cons.1 h with h | h
      · exact absurd h.symm hne
      · exact ih h
    · rw [List.dropWhile_cons_of_neg hc]
      exact h

theorem zap_dropWhile_ws : ∀ (rest : List Char),
    zap rest = List.replicate (rest.takeWhile isWs).length NUL ++ zap (rest.dropWhile isWs) := by
  intro rest
  induction rest with
  | nil => simp [zap]
  | cons c r ih =>
    by_cases hw : isWs c = true
    · have hne : c ≠ NUL := isWs_ne_NUL hw
      rw [zap, if_neg hne, if_pos hw, ih]
      simp [List.takeWhile_cons, List.dropWhile_cons, hw, List.replicate_succ]
    · have hw2 : isWs c = false := by simpa using hw
      simp [List.takeWhile_cons, List.dropWhile_cons, hw2]

theorem zap_dropWhile_tok : ∀ (rest : List Char),
    zap rest = rest.takeWhile isTok ++ zap (rest.dropWhile isTok) := by
  intro rest
  induction rest with
  | nil => simp [zap]
  | cons c r ih =>
    by_cases ht : isTok c = true
    · obtain ⟨hne, hw⟩ := (isTok_iff c).1 ht
      rw [zap, if_neg hne, if_neg (by simp [hw]), ih]
      simp [List.takeWhile_cons, List.dropWhile_cons, ht]
    · have ht2 : isTok c = false := by simpa using ht
      simp [List.takeWhile_cons, List.dropWhile_cons, ht2]

theorem takeWhile_zap : ∀ (rest : List Char),
    (zap rest).takeWhile (fun c => c != NUL) = rest.takeWhile isTok := by
  intro rest
  induction rest with
  | nil => simp [zap]
  | cons c r ih =>
    by_cases hn : c = NUL
    · subst hn
      simp [zap, List.takeWhile_cons, isTok_NUL]
    · by_cases hw : isWs c = true
      · have ht : isTok c = false := by simp [isTok, hw]
        simp [zap, hn, hw, List.takeWhile_cons, ht]
      · have hw2 : isWs c = false := by simpa using hw
        have ht : isTok c = true := (isTok_iff c).2 ⟨hn, hw2⟩
        simp [zap, hn, hw2, List.takeWhile_cons, ht, ih]

theorem cstrAt_zap (done rest : List Char) :
    cstrAt (done ++ zap rest) done.length = rest.takeWhile isTok := by
  simp [cstrAt, takeWhile_zap]

theorem runs_nil : runs [] = [] := by
  simp [runs, List.splitOnP_nil]

theorem runs_cons_ws (c : Char) (s : List Char) (hw : isWs c = true) :
    runs (c :: s) = runs s := by
  simp [runs, List.splitOnP_cons, hw]

theorem splitOnP_cons_tok : ∀ (s : List Char) (c : Char), isWs c = false →
    ∃ X, (c :: s).splitOnP isWs = (c :: s.takeWhile (fun d => !isWs d)) :: X ∧
      X.filter (fun t => !t.isEmpty) = runs (s.dropWhile (fun d => !isWs d)) := by
  intro s
  induction s with
  | nil =>
    intro c hc
    exact ⟨[], by simp [List.splitOnP_cons, hc, List.splitOnP_nil], by simp [runs_nil]⟩
  | cons d r ih =>
    intro c hc
    by_cases hd : isWs d = true
    · refine ⟨r.splitOnP isWs, ?_, ?_⟩
      · rw [List.splitOnP_cons, if_neg (by simp [hc]), List.splitOnP_cons, if_pos hd]
        simp [List.takeWhile_cons, hd]
      · rw [List.dropWhile_cons_of_neg (by simp [hd]), runs_cons_ws d r hd]
        rfl
    · have hd2 : isWs d = false := by simpa using hd
      obtain ⟨X, hX, hf⟩ := ih d hd2
      refine ⟨X, ?_, ?_⟩
      · rw [List.splitOnP_cons, if_neg (by simp [hc]), hX]
        simp [List.takeWhile_cons, hd2]
      · rw [List.dropWhile_cons_of_pos (by simp [hd2])]
        exact hf

theorem runs_cons_tok (c : Char) (s : List Char) (hc : isWs c = false) :
    runs (c :: s) =
      (c :: s.takeWhile (fun d => !isWs d)) :: runs (s.dropWhile (fun d => !isWs d)) := by
  obtain ⟨X, hX, hf⟩ := splitOnP_cons_tok s c hc
  unfold runs at hf ⊢
  rw [hX, List.filter_cons_of_pos (by simp), hf]

theorem content_cons_of_ne {c : Char} (r : List Char) (hc : c ≠ NUL) :
    content (c :: r) = c :: content r := by
  simp [content, List.takeWhile_cons, hc]

theorem content_cons_NUL (r : List Char) : content (NUL :: r) = [] := by
  simp [content, List.takeWhile_cons]

theorem runs_content_dropWhile_ws : ∀ (rest : List Char),
    runs (content (rest.dropWhile isWs)) = runs (content rest) := by
  intro rest
  induction rest with
  | nil => rfl
  | cons c r ih =>
    by_cases hw : isWs c = true
    · rw [List.dropWhile_cons_of_pos hw, ih, content_cons_of_ne r (isWs_ne_NUL hw),
        runs_cons_ws c _ hw]
    · rw [List.dropWhile_cons_of_neg hw]

theorem takeWhile_content : ∀ (r : List Char),
    (content r).takeWhile (fun d => !isWs d) = r.takeWhile isTok := by
  intro r
  induction r with
  | nil => rfl
  | cons d r ih =>
    by_cases hn : d = NUL
    · subst hn
      simp [content_cons_NUL, List.takeWhile_cons, isTok_NUL]
    · rw [content_cons_of_ne r hn]
      by_cases hw : isWs d = true
      · have ht : isTok d = false := by simp [isTok, hw]
        simp [List.takeWhile_cons, hw, ht]
      · have hw2 : isWs d = false := by simpa using hw
        have ht : isTok d = true := (isTok_iff d).2 ⟨hn, hw2⟩
        simp [List.takeWhile_cons, hw2, ht, ih]

theorem dropWhile_content : ∀ (r : List Char),
    (content r).dropWhile (fun d => !isWs d) = content (r.dropWhile isTok) := by
  intro r
  induction r with
  | nil => rfl
  | cons d r ih =>
    by_cases hn : d = NUL
    · subst hn
      simp [content_cons_NUL, List.dropWhile_cons, isTok_NUL]
    · rw [content_cons_of_ne r hn]
      by_cases hw : isWs d = true
      · have ht : isTok d = false := by simp [isTok, hw]
        simp [List.dropWhile_cons, hw, ht, content_cons_of_ne r hn]
      · have hw2 : isWs d = false := by simpa using hw
        have ht : isTok d = true := (isTok_iff d).2 ⟨hn, hw2⟩
        simp [List.dropWhile_cons, hw2, ht, ih]

theorem runs_content_tok (c : Char) (r : List Char) (ht : isTok c = true) :
    runs (content (c :: r)) =
      (c :: r).takeWhile isTok :: runs (content ((c :: r).dropWhile isTok)) := by
  obtain ⟨hne, hw⟩ := (isTok_iff c).1 ht
  rw [content_cons_of_ne r hne, runs_cons_tok c _ hw, takeWhile_content, dropWhile_content,
    List.takeWhile_cons_of_pos ht, List.dropWhile_cons_of_pos ht]

theorem head_dropWhile_false (p : Char → Bool) : ∀ (l : List Char) (c : Char) (r : List Char),
    l.dropWhile p = c :: r → p c = false := by
  intro l
  induction l with
  | nil => intro c r h; simp at h
  | cons d l ih =>
    intro c r h
    by_cases hd : p d = true
    · rw [List.dropWhile_cons_of_pos hd] at h
      exact ih c r h
    · rw [List.dropWhile_cons_of_neg hd] at h
      obtain ⟨rfl, _⟩ := List.cons.inj h
      simpa using hd

theorem argStr_set_self (buf : List Char) (argv : Argv) (i p : Nat) (hi : i < argv.length) :
    argStr buf (argv.set i (some p)) i = cstrAt buf p := by
  simp [argStr, hi]

theorem argStr_congr (buf : List Char) (argv argv1 : Argv) (i : Nat)
    (h : argv1.get? i = argv.get? i) : argStr buf argv1 i = argStr buf argv i := by
  unfold argStr
  rw [h]

theorem parseLoop_ok : ∀ (fuel argc : Nat) (argv : Argv) (done rest : List Char),
    NUL ∈ rest → argv.length = MAXARGS →
    argc + (runs (content rest)).length ≤ MAXARGS - 1 →
    (runs (content rest)).length < fuel →
    ∃ argv1, parseLoop fuel argc argv done rest =
        some (Parsed.args (argc + (runs (content rest)).length) argv1 (done ++ zap rest)) ∧
      argv1.length = MAXARGS ∧
      (∀ i, i < argc → argv1.get? i = argv.get? i) ∧
      (∀ i t, (runs (content rest)).get? i = some t →
        argStr (done ++ zap rest) argv1 (argc + i) = t) := by
  intro fuel
  induction fuel with
  | zero => intro argc argv done rest _ _ _ h; exact absurd h (Nat.not_lt_zero _)
  | succ k ih =>
    intro argc argv done rest hnul hlen hcnt hfuel
    have hnul1 : NUL ∈ rest.dropWhile isWs := mem_dropWhile_NUL isWs isWs_NUL rest hnul
    obtain ⟨c, r1, hr1⟩ : ∃ c r1, rest.dropWhile isWs = c :: r1 := by
      cases h : rest.dropWhile isWs with
      | nil => rw [h] at hnul1; simp at hnul1
      | cons c r1 => exact ⟨c, r1, rfl⟩
    have hcw : isWs c = false := head_dropWhile_false isWs rest c r1 hr1
    have hzap : zap rest =
        List.replicate (rest.takeWhile isWs).length NUL ++ zap (c :: r1) := by
      rw [← hr1]; exact zap_dropWhile_ws rest
    have hruns : runs (content rest) = runs (content (c :: r1)) := by
      rw [← hr1]; exact (runs_content_dropWhile_ws rest).symm
    rw [parseLoop, gobble_eq rest done hnul, hr1]
    simp only
    by_cases hc : c = NUL
    · subst hc
      rw [if_pos rfl]
      have hr0 : runs (content rest) = [] := by rw [hruns, content_cons_NUL, runs_nil]
      refine ⟨argv, ?_, hlen, fun i _ => rfl, ?_⟩
      · rw [hr0, hzap]
        simp [zap]
      · intro i t hi
        rw [hr0] at hi
        simp at hi
    · have ht : isTok c = true := (isTok_iff c).2 ⟨hc, hcw⟩
      have hnul1c : NUL ∈ c :: r1 := hr1 ▸ hnul1
      have hruns2 := runs_content_tok c r1 ht
      rw [hruns, hruns2] at hcnt hfuel
      simp only [List.length_cons] at hcnt hfuel
      have hargc : argc < MAXARGS - 1 := by omega
      have hargc2 : argc < argv.length := by rw [hlen]; simp only [MAXARGS] at hargc ⊢; omega
      rw [if_neg hc, if_neg (Nat.ne_of_lt hargc)]
      simp only [writeArg, if_pos hargc2]
      rw [scanArg_eq (c :: r1) _ hnul1c]
      simp only
      have hnul2 : NUL ∈ (c :: r1).dropWhile isTok :=
        mem_dropWhile_NUL isTok isTok_NUL _ hnul1c
      obtain ⟨argv1, hp, hl1, hpre, htok⟩ := ih (argc + 1)
        (argv.set argc (some (done ++ List.replicate (rest.takeWhile isWs).length NUL).length))
        (done ++ List.replicate (rest.takeWhile isWs).length NUL ++ (c :: r1).takeWhile isTok)
        ((c :: r1).dropWhile isTok) hnul2 (by simpa using hlen) (by omega) (by omega)
      have hbuf : done ++ List.replicate (rest.takeWhile isWs).length NUL ++
          (c :: r1).takeWhile isTok ++ zap ((c :: r1).dropWhile isTok) = done ++ zap rest := by
        rw [hzap, zap_dropWhile_tok (c :: r1)]
        simp [List.append_assoc]
      rw [hbuf] at hp htok
      refine ⟨argv1, ?_, hl1, ?_, ?_⟩
      · rw [hp, hruns, hruns2]
        simp only [List.length_cons]
        congr 2
        omega
      · intro i hi
        rw [hpre i (by omega)]
        rw [List.get?_eq_getElem?, List.get?_eq_getElem?]
        exact List.getElem?_set_ne (Nat.ne_of_gt hi)
      · intro i t hi
        rw [hruns, hruns2] at hi
        cases i with
        | zero =>
          simp only [List.get?_cons_zero, Option.some.injEq] at hi
          rw [Nat.add_zero, argStr_congr _ _ _ _ (hpre argc (by omega)),
            argStr_set_self _ _ _ _ hargc2, ← hi, hzap, ← List.append_assoc, cstrAt_zap]
        | succ j =>
          simp only [List.get?_cons_succ] at hi
          have := htok j t hi
          rw [← this]
          congr 1
          omega

theorem parseLoop_tooMany : ∀ (fuel argc : Nat) (argv : Argv) (done rest : List Char),
    NUL ∈ rest → argv.length = MAXARGS → argc ≤ MAXARGS - 1 →
    MAXARGS - 1 < argc + (runs (content rest)).length →
    MAXARGS - 1 - argc < fuel →
    ∃ b, parseLoop fuel argc argv done rest = some (Parsed.tooMany b) := by
  intro fuel
  induction fuel with
  | zero => intro argc argv done rest _ _ _ _ h; exact absurd h (Nat.not_lt_zero _)
  | succ k ih =>
    intro argc argv done rest hnul hlen hargc hcnt hfuel
    have hnul1 : NUL ∈ rest.dropWhile isWs := mem_dropWhile_NUL isWs isWs_NUL rest hnul
    obtain ⟨c, r1, hr1⟩ : ∃ c r1, rest.dropWhile isWs = c :: r1 := by
      cases h : rest.dropWhile isWs with
      | nil => rw [h] at hnul1; simp at hnul1
      | cons c r1 => exact ⟨c, r1, rfl⟩
    have hcw : isWs c = false := head_dropWhile_false isWs rest c r1 hr1
    have hruns : runs (content rest) = runs (content (c :: r1)) := by
      rw [← hr1]; exact (runs_content_dropWhile_ws rest).symm
    rw [parseLoop, gobble_eq rest done hnul, hr1]
    simp only
    by_cases hc : c = NUL
    · subst hc
      rw [hruns, content_cons_NUL, runs_nil] at hcnt
      simp only [List.length_nil] at hcnt
      omega
    · have ht : isTok c = true := (isTok_iff c).2 ⟨hc, hcw⟩
      have hnul1c : NUL ∈ c :: r1 := hr1 ▸ hnul1
      rw [if_neg hc]
      by_cases ha : argc = MAXARGS - 1
      · rw [if_pos ha]
        exact ⟨_, rfl⟩
      · rw [if_neg ha]
        have hargc2 : argc < argv.length := by
          rw [hlen]; simp only [MAXARGS] at hargc ha ⊢; omega
        simp only [writeArg, if_pos hargc2]
        rw [scanArg_eq (c :: r1) _ hnul1c]
        simp only
        rw [hruns, runs_content_tok c r1 ht] at hcnt
        simp only [List.length_cons] at hcnt
        exact ih (argc + 1) _ _ _ (mem_dropWhile_NUL isTok isTok_NUL _ hnul1c)
          (by simpa using hlen) (by omega) (by omega) (by omega)

theorem parse_ok (buf : List Char) (hnul : NUL ∈ buf)
    (hcnt : (runs (content buf)).length ≤ MAXARGS - 1) :
    ∃ argv, parse buf = some (Parsed.args (runs (content buf)).length argv (zap buf)) ∧
      argv.length = MAXARGS ∧
      argStrings (zap buf) (runs (content buf)).length argv = runs (content buf) := by
  obtain ⟨argv, hp, hl, _, htok⟩ := parseLoop_ok MAXARGS 0 (List.replicate MAXARGS none) [] buf
    hnul (by simp) (by omega) (by simp only [MAXARGS] at hcnt ⊢; omega)
  simp only [Nat.zero_add, List.nil_append] at hp htok
  refine ⟨argv, ?_, hl, ?_⟩
  · rw [← hp]
    rfl
  · apply List.ext_get?
    intro i
    by_cases hi : i < (runs (content buf)).length
    · have h1 : (runs (content buf)).get? i = some ((runs (content buf)).get ⟨i, hi⟩) :=
        List.get?_eq_get hi
      rw [h1]
      simp only [argStrings, List.get?_eq_getElem?, List.getElem?_map,
        List.getElem?_range hi, Option.map_some']
      rw [htok i _ h1]
    · have h1 : (runs (content buf)).get? i = none := List.get?_eq_none.2 (by omega)
      rw [h1]
      simp only [argStrings, List.get?_eq_getElem?, List.getElem?_map]
      rw [List.getElem?_eq_none (by simpa using hi)]
      rfl

theorem parse_tooMany (buf : List Char) (hnul : NUL ∈ buf)
    (hcnt : MAXARGS - 1 < (runs (content buf)).length) :
    ∃ b, parse buf = some (Parsed.tooMany b) := by
  obtain ⟨b, hb⟩ := parseLoop_tooMany MAXARGS 0 (List.replicate MAXARGS none) [] buf
    hnul (by simp) (by omega) (by omega) (by simp only [MAXARGS]; omega)
  exact ⟨b, by rw [← hb]; rfl⟩

theorem parse_isSome (buf : List Char) (hnul : NUL ∈ buf) : (parse buf).isSome = true := by
  by_cases h : (runs (content buf)).length ≤ MAXARGS - 1
  · obtain ⟨argv, hp, _⟩ := parse_ok buf hnul h
    rw [hp]; rfl
  · obtain ⟨b, hb⟩ := parse_tooMany buf hnul (by omega)
    rw [hb]; rfl

theorem parse_eq (buf : List Char) :
    parse buf = parseLoop MAXARGS 0 (List.replicate MAXARGS none) [] buf := rfl

theorem parseLoop_args_inv : ∀ (fuel argc : Nat) (argv : Argv) (done rest : List Char)
    (a : Nat) (v : Argv) (b : List Char),
    parseLoop fuel argc argv done rest = some (Parsed.args a v b) →
    argv.length = MAXARGS → argc ≤ MAXARGS - 1 → v.length = MAXARGS ∧ a ≤ MAXARGS - 1 := by
  intro fuel
  induction fuel with
  | zero => intro argc argv done rest a v b h; simp [parseLoop] at h
  | succ k ih =>
    intro argc argv done rest a v b h hlen hargc
    rw [parseLoop] at h
    split at h
    · cases h
    · split at h
      · cases h
      · split at h
        · simp only [Option.some.injEq, Parsed.args.injEq] at h
          obtain ⟨rfl, rfl, _⟩ := h
          exact ⟨hlen, hargc⟩
        · split at h
          · cases h
          · split at h
            · cases h
            · rename_i argv1 hw
              split at h
              · cases h
              · rename_i hne _ _ _ _ _
                simp only [writeArg] at hw
                split at hw
                · simp only [Option.some.injEq] at hw
                  subst hw
                  exact ih _ _ _ _ _ _ _ h (by simpa using hlen) (by omega)
                · cases hw

theorem argStr_NUL_free (buf : List Char) (argv : Argv) (i : Nat) :
    NUL ∉ argStr buf argv i := by
  unfold argStr
  split
  · intro h
    have := List.mem_takeWhile_imp h
    simp at this
  · simp

theorem argStrings_length (buf : List Char) (argc : Nat) (argv : Argv) :
    (argStrings buf argc argv).length = argc := by
  simp [argStrings]

theorem argStrings_set (buf : List Char) (argc : Nat) (argv : Argv) (v : Option Nat) :
    argStrings buf argc (argv.set argc v) = argStrings buf argc argv := by
  unfold argStrings
  apply List.map_congr_left
  intro i hi
  have hi2 : i < argc := List.mem_range.1 hi
  apply argStr_congr
  rw [List.get?_eq_getElem?, List.get?_eq_getElem?]
  exact List.getElem?_set_ne (Nat.ne_of_gt hi2)

theorem argStr_zero_set (buf : List Char) (argc : Nat) (argv : Argv) (v : Option Nat)
    (h : 0 < argc) :
    argStr buf (argv.set argc v) 0 = (argStrings buf argc argv).headD [] := by
  obtain ⟨k, rfl⟩ : ∃ k, argc = k + 1 := ⟨argc - 1, by omega⟩
  have h1 : argStr buf (argv.set (k + 1) v) 0 = argStr buf argv 0 := by
    apply argStr_congr
    rw [List.get?_eq_getElem?, List.get?_eq_getElem?]
    exact List.getElem?_set_ne (by omega)
  rw [h1]
  simp [argStrings, List.range_succ_eq_map]

theorem runcmdWith_of_tokens {F : Type} (call : F → Handler) (cmds : List (Command F))
    (buf : List Char) (tf : Nat) (out : Console) (ts : List (List Char))
    (h : tokens buf = some ts) :
    runcmdWith call cmds buf tf out =
      if ts = [] then some (0, out)
      else lookup call (ts.headD []) ts.length ts tf cmds out := by
  unfold tokens at h
  unfold runcmdWith
  cases hp : parse buf with
  | none => rw [hp] at h; cases h
  | some r =>
    cases r with
    | tooMany b => rw [hp] at h; cases h
    | args argc argv buf1 =>
      rw [hp] at h
      simp only [Option.some.injEq] at h
      obtain ⟨hl, ha⟩ := parseLoop_args_inv _ _ _ _ _ _ _ _ (parse_eq buf ▸ hp) (by simp)
        (by omega)
      have hw : writeArg argv argc none = some (argv.set argc none) := by
        simp only [writeArg]
        rw [if_pos (by rw [hl]; simp only [MAXARGS] at ha ⊢; omega)]
      simp only [hw]
      by_cases h0 : argc = 0
      · subst h0
        have : ts = [] := by rw [← h]; rfl
        rw [if_pos rfl, if_pos this]
      · have hne : ts ≠ [] := by
          intro e
          have := argStrings_length buf1 argc argv
          rw [h, e] at this
          exact h0 this.symm
        rw [if_neg h0, if_neg hne, argStrings_set, argStr_zero_set _ _ _ _ (by omega), h]
        have : ts.length = argc := by rw [← h]; exact argStrings_length _ _ _
        rw [this]

theorem tokens_NUL_free (buf : List Char) (ts : List (List Char)) (h : tokens buf = some ts) :
    ∀ t ∈ ts, NUL ∉ t := by
  unfold tokens at h
  split at h
  · simp only [Option.some.injEq] at h
    subst h
    intro t ht
    simp only [argStrings, List.mem_map] at ht
    obtain ⟨i, _, rfl⟩ := ht
    exact argStr_NUL_free _ _ _
  · cases h

theorem toNat_inj {p q : Char} (h : p.toNat = q.toNat) : p = q := by
  rw [← Char.ofNat_toNat p, ← Char.ofNat_toNat q, h]

theorem toNat_ne_zero {p : Char} (h : p ≠ NUL) : p.toNat ≠ 0 := by
  intro e
  exact h (toNat_inj e)

theorem strcmp_eq_zero_iff : ∀ (a b : List Char), NUL ∉ a → NUL ∉ b →
    (strcmp a b = 0 ↔ a = b) := by
  intro a
  induction a with
  | nil =>
    intro b _ hb
    cases b with
    | nil => simp [strcmp]
    | cons q qs =>
      have hq : q ≠ NUL := fun e => hb (by simp [e])
      have := toNat_ne_zero hq
      simp only [strcmp]
      constructor
      · intro h; omega
      · intro h; cases h
  | cons p ps ih =>
    intro b ha hb
    have hp : p ≠ NUL := fun e => ha (by simp [e])
    have hps : NUL ∉ ps := fun e => ha (List.mem_cons_of_mem _ e)
    cases b with
    | nil =>
      have := toNat_ne_zero hp
      simp only [strcmp]
      constructor
      · intro h; omega
      · intro h; cases h
    | cons q qs =>
      have hqs : NUL ∉ qs := fun e => hb (List.mem_cons_of_mem _ e)
      by_cases hpq : p = q
      · subst hpq
        rw [strcmp, if_pos ⟨hp, rfl⟩, ih qs hps hqs]
        simp
      · rw [strcmp, if_neg (fun h => hpq h.2)]
        have : p.toNat ≠ q.toNat := fun e => hpq (toNat_inj e)
        constructor
        · intro h; omega
        · intro h
          exact absurd (List.cons.inj h).1 hpq

theorem lookup_first_match {F : Type} (call : F → Handler) (argv0 : List Char) (argc : Nat)
    (argv : List (List Char)) (tf : Nat) (out : Console) (h0 : NUL ∉ argv0) :
    ∀ (cmds : List (Command F)) (c : Command F), (∀ d ∈ cmds, NUL ∉ d.name.toList) →
      cmds.find? (fun d => decide (d.name.toList = argv0)) = some c →
      lookup call argv0 argc argv tf cmds out = call c.func argc argv tf out := by
  intro cmds
  induction cmds with
  | nil => intro c _ h; simp at h
  | cons d ds ih =>
    intro c hn h
    have hd : NUL ∉ d.name.toList := hn d (List.mem_cons_self _ _)
    by_cases he : d.name.toList = argv0
    · rw [List.find?_cons_of_pos _ (by simpa using he)] at h
      simp only [Option.some.injEq] at h
      subst h
      rw [lookup, if_pos ((strcmp_eq_zero_iff _ _ h0 hd).2 he.symm)]
    · rw [List.find?_cons_of_neg _ (by simpa using he)] at h
      rw [lookup, if_neg (fun e => he ((strcmp_eq_zero_iff _ _ h0 hd).1 e).symm)]
      exact ih c (fun x hx => hn x (List.mem_cons_of_mem _ hx)) h

theorem lookup_no_match {F : Type} (call : F → Handler) (argv0 : List Char) (argc : Nat)
    (argv : List (List Char)) (tf : Nat) (out : Console) (h0 : NUL ∉ argv0) :
    ∀ (cmds : List (Command F)), (∀ d ∈ cmds, NUL ∉ d.name.toList) →
      (∀ d ∈ cmds, d.name.toList ≠ argv0) →
      lookup call argv0 argc argv tf cmds out =
        some (0, out ++ ("Unknown command '".toList ++ argv0 ++ "'\n".toList)) := by
  intro cmds
  induction cmds with
  | nil => intro _ _; rfl
  | cons d ds ih =>
    intro hn hne
    have hd : NUL ∉ d.name.toList := hn d (List.mem_cons_self _ _)
    have he : d.name.toList ≠ argv0 := hne d (List.mem_cons_self _ _)
    rw [lookup, if_neg (fun e => he ((strcmp_eq_zero_iff _ _ h0 hd).1 e).symm)]
    exact ih (fun x hx => hn x (List.mem_cons_of_mem _ hx))
      (fun x hx => hne x (List.mem_cons_of_mem _ hx))

theorem runs_all_ws : ∀ (s : List Char), (∀ c ∈ s, isWs c = true) → runs s = [] := by
  intro s
  induction s with
  | nil => intro _; exact runs_nil
  | cons c r ih =>
    intro h
    rw [runs_cons_ws c r (h c (List.mem_cons_self _ _))]
    exact ih (fun x hx => h x (List.mem_cons_of_mem _ hx))

theorem runs_tokens_wf : ∀ (n : Nat) (s : List Char), s.length ≤ n →
    ∀ t ∈ runs s, t ≠ [] ∧ ∀ c ∈ t, isWs c = false := by
  intro n
  induction n with
  | zero =>
    intro s hs t ht
    have : s = [] := List.length_eq_zero.1 (Nat.le_zero.1 hs)
    rw [this, runs_nil] at ht
    simp at ht
  | succ n ih =>
    intro s hs t ht
    cases s with
    | nil => rw [runs_nil] at ht; simp at ht
    | cons c r =>
      have hr : r.length ≤ n := by simpa using hs
      by_cases hw : isWs c = true
      · rw [runs_cons_ws c r hw] at ht
        exact ih r hr t ht
      · have hw2 : isWs c = false := by simpa using hw
        rw [runs_cons_tok c r hw2] at ht
        rcases List.mem_cons.1 ht with h | h
        · subst h
          refine ⟨by simp, ?_⟩
          intro x hx
          rcases List.mem_cons.1 hx with hx | hx
          · rw [hx]; exact hw2
          · simpa using List.mem_takeWhile_imp hx
        · exact ih _ (le_trans (List.dropWhile_sublist _).length_le hr) t h

/-! ### Claims about `runcmd` -/

theorem tokens_eq_runs (buf : List Char) (hnul : NUL ∈ buf)
    (hcnt : (runs (content buf)).length ≤ MAXARGS - 1) :
    tokens buf = some (runs (content buf)) := by
  obtain ⟨argv, hp, _, ht⟩ := parse_ok buf hnul hcnt
  unfold tokens
  rw [hp]
  simp only [ht]

/-- C2: for a NUL-terminated buffer whose text has at most `MAXARGS-1 = 15` maximal runs of
non-whitespace characters (the number of tokens the parser accepts), the strings
`argv[0..argc-1]` built by `runcmd` are exactly these runs, left to right; no token is
empty and no token contains a whitespace character. Cutting the text at every whitespace
character and dropping the empty pieces makes a run of whitespace one separator and gives no
token for leading or trailing whitespace. -/
theorem C2_tokens_are_runs (buf : List Char) (hnul : NUL ∈ buf)
    (hcnt : (runs (content buf)).length ≤ MAXARGS - 1) :
    tokens buf = some (((content buf).splitOnP isWs).filter (fun t => !t.isEmpty)) ∧
      ∀ t ∈ runs (content buf), t ≠ [] ∧ ∀ c ∈ t, isWs c = false :=
  ⟨tokens_eq_runs buf hnul hcnt, runs_tokens_wf _ _ (le_refl _)⟩

/-- Witness of C2: a line with leading, repeated and trailing whitespace, and bytes after
the terminator. -/
theorem C2_tokens_are_runs_witness :
    tokens "  ab \t cd\r\ne \x00 zz".toList = some ["ab".toList, "cd".toList, "e".toList] :=
  (C2_tokens_are_runs "  ab \t cd\r\ne \x00 zz".toList (by decide) (by decide)).1.trans
    (by decide)

/-- C3: when the line is tokenized to a non-empty sequence and some name of the table equals
the first token (exact equality of the character strings), `runcmd` is the call of the
function of the first such entry in table order, made once on the console as it was on entry,
with `argc` the number of tokens and `argv` the tokens; the result of `runcmd`, status and
console, is the result of that call. This holds for every table and every meaning of the
function pointers, so no other function of the table takes part. -/
theorem C3_dispatch_first_match {F : Type} (call : F → Handler) (cmds : List (Command F))
    (buf : List Char) (tf : Nat) (out : Console) (t0 : List Char) (ts : List (List Char))
    (c : Command F) (htok : tokens buf = some (t0 :: ts))
    (hnames : ∀ d ∈ cmds, NUL ∉ d.name.toList)
    (hfirst : cmds.find? (fun d => decide (d.name.toList = t0)) = some c) :
    runcmdWith call cmds buf tf out = call c.func (ts.length + 1) (t0 :: ts) tf out := by
  rw [runcmdWith_of_tokens call cmds buf tf out _ htok, if_neg (by simp)]
  exact lookup_first_match call t0 _ _ tf out
    (tokens_NUL_free buf _ htok t0 (List.mem_cons_self _ _)) cmds c hnames hfirst

/-- Witness of C3: `kerninfo` with two arguments on the table `commands`. -/
theorem C3_dispatch_first_match_witness :
    tokens "kerninfo -v  x\x00".toList =
      some ["kerninfo".toList, "-v".toList, "x".toList] ∧
    runcmd twoFrames 3 "kerninfo -v  x\x00".toList 0 [] =
      mon_kerninfo twoFrames 3 ["kerninfo".toList, "-v".toList, "x".toList] 0 [] :=
  ⟨by decide,
   C3_dispatch_first_match (callMon twoFrames 3) commands "kerninfo -v  x\x00".toList 0 []
     "kerninfo".toList ["-v".toList, "x".toList]
     { name := "kerninfo", desc := "Display information about the kernel",
       func := MonFn.mon_kerninfo } (by decide) (by decide) (by rfl)⟩

theorem runcmdWith_tooMany {F : Type} (call : F → Handler) (cmds : List (Command F))
    (buf : List Char) (tf : Nat) (out : Console) (hnul : NUL ∈ buf)
    (hcnt : MAXARGS - 1 < (runs (content buf)).length) :
    runcmdWith call cmds buf tf out =
      some (0, out ++ "Too many arguments (max 16)\n".toList) := by
  obtain ⟨b, hb⟩ := parse_tooMany buf hnul hcnt
  unfold runcmdWith
  rw [hb]
  rfl

theorem tokens_tooMany (buf : List Char) (hnul : NUL ∈ buf)
    (hcnt : MAXARGS - 1 < (runs (content buf)).length) : tokens buf = none := by
  obtain ⟨b, hb⟩ := parse_tooMany buf hnul hcnt
  unfold tokens
  rw [hb]

/-- C5, counterexample: the line `line16` has exactly sixteen tokens, yet `runcmd` leaves
the parsing loop with the too-many-arguments message and builds no token sequence. -/
theorem C5_sixteen_tokens_rejected :
    NUL ∈ line16 ∧ (runs (content line16)).length = 16 ∧ tokens line16 = none ∧
    runcmd noFrame 1 line16 0 [] = some (0, "Too many arguments (max 16)\n".toList) := by
  refine ⟨by decide, by decide, by decide, by rfl⟩

/-- C5, as amended: `runcmd` leaves the parsing loop with the too-many-arguments diagnostic
exactly when the line has more than `MAXARGS-1 = 15` whitespace-separated tokens; every line
with at most 15 tokens is fully tokenized and passed on to the command lookup (which is
skipped for a line without tokens). -/
theorem C5_too_many_iff_more_than_fifteen {F : Type} (call : F → Handler)
    (cmds : List (Command F)) (buf : List Char) (tf : Nat) (out : Console)
    (hnul : NUL ∈ buf) :
    (MAXARGS - 1 < (runs (content buf)).length →
      (∃ b, parse buf = some (Parsed.tooMany b)) ∧
      runcmdWith call cmds buf tf out =
        some (0, out ++ "Too many arguments (max 16)\n".toList)) ∧
    ((runs (content buf)).length ≤ MAXARGS - 1 →
      tokens buf = some (runs (content buf)) ∧
      runcmdWith call cmds buf tf out =
        if runs (content buf) = [] then some (0, out)
        else lookup call ((runs (content buf)).headD []) (runs (content buf)).length
          (runs (content buf)) tf cmds out) := by
  constructor
  · intro h
    exact ⟨parse_tooMany buf hnul h, runcmdWith_tooMany call cmds buf tf out hnul h⟩
  · intro h
    have ht : tokens buf = some (runs (content buf)) := tokens_eq_runs buf hnul h
    exact ⟨ht, runcmdWith_of_tokens call cmds buf tf out _ ht⟩

/-- Witness of C5 as amended: fifteen tokens are accepted, sixteen are not. -/
theorem C5_too_many_iff_more_than_fifteen_witness :
    (runs (content line15)).length = 15 ∧ (runs (content line16)).length = 16 ∧
    tokens line15 = some (runs (content line15)) ∧
    runcmd noFrame 1 line15 0 [] = some (0, "Unknown command 'a'\n".toList) ∧
    (∃ b, parse line16 = some (Parsed.tooMany b)) :=
  ⟨by decide, by decide,
   ((C5_too_many_iff_more_than_fifteen (callMon noFrame 1) commands line15 0 []
      (by decide)).2 (by decide)).1,
   (((C5_too_many_iff_more_than_fifteen (callMon noFrame 1) commands line15 0 []
      (by decide)).2 (by decide)).2).trans (by rfl),
   ((C5_too_many_iff_more_than_fifteen (callMon noFrame 1) commands line16 0 []
      (by decide)).1 (by decide)).1⟩

/-- C6: for every NUL-terminated line with more than `MAXARGS = 16` tokens, `runcmd` prints
the too-many-arguments diagnostic and returns 0, and does nothing else: the result is the
same for every table and every meaning of the function pointers (also functions that never
return or that write to the console), so no command function is called, whatever the first
token is. -/
theorem C6_too_many_no_handler {F : Type} (call : F → Handler) (cmds : List (Command F))
    (buf : List Char) (tf : Nat) (out : Console) (hnul : NUL ∈ buf)
    (hcnt : MAXARGS < (runs (content buf)).length) :
    runcmdWith call cmds buf tf out =
      some (0, out ++ "Too many arguments (max 16)\n".toList) :=
  runcmdWith_tooMany call cmds buf tf out hnul (by omega)

/-- Witness of C6: seventeen tokens, the first being the registered name `help`. -/
theorem C6_too_many_no_handler_witness :
    (runs (content line17)).head? = some "help".toList ∧
    (runs (content line17)).length = 17 ∧
    runcmd twoFrames 3 line17 0 [] = some (0, "Too many arguments (max 16)\n".toList) :=
  ⟨by decide, by decide,
   C6_too_many_no_handler (callMon twoFrames 3) commands line17 0 [] (by decide)
     (by decide)⟩

/-- C7: when the line is tokenized to a non-empty sequence whose first token equals no name
of the table (names that differ in letter case, proper prefixes and extensions of a name are
not equal to it), `runcmd` returns 0 and the console has grown by exactly
`Unknown command '<first token>'` and a newline; the result is the same for every meaning of
the function pointers, so no command function is called. -/
theorem C7_unknown_command {F : Type} (call : F → Handler) (cmds : List (Command F))
    (buf : List Char) (tf : Nat) (out : Console) (t0 : List Char) (ts : List (List Char))
    (htok : tokens buf = some (t0 :: ts)) (hnames : ∀ d ∈ cmds, NUL ∉ d.name.toList)
    (hnone : ∀ d ∈ cmds, d.name.toList ≠ t0) :
    runcmdWith call cmds buf tf out =
      some (0, out ++ ("Unknown command '".toList ++ t0 ++ "'\n".toList)) := by
  rw [runcmdWith_of_tokens call cmds buf tf out _ htok, if_neg (by simp)]
  exact lookup_no_match call t0 _ _ tf out
    (tokens_NUL_free buf _ htok t0 (List.mem_cons_self _ _)) cmds hnames hnone

/-- Witness of C7: `Help` (letter case), `hel` (prefix) and `helpx` (extension). -/
theorem C7_unknown_command_witness :
    runcmd twoFrames 3 "Help me\x00".toList 0 [] =
      some (0, "Unknown command 'Help'\n".toList) ∧
    runcmd twoFrames 3 "hel\x00".toList 0 [] = some (0, "Unknown command 'hel'\n".toList) ∧
    runcmd twoFrames 3 " helpx\x00".toList 0 [] =
      some (0, "Unknown command 'helpx'\n".toList) :=
  ⟨C7_unknown_command (callMon twoFrames 3) commands "Help me\x00".toList 0 []
     "Help".toList ["me".toList] (by decide) (by decide) (by decide),
   C7_unknown_command (callMon twoFrames 3) commands "hel\x00".toList 0 []
     "hel".toList [] (by decide) (by decide) (by decide),
   C7_unknown_command (callMon twoFrames 3) commands " helpx\x00".toList 0 []
     "helpx".toList [] (by decide) (by decide) (by decide)⟩

/-- C8: for a NUL-terminated line whose text is empty or consists of whitespace characters
only, the token sequence is empty and `runcmd` returns 0 with the console unchanged; the
result is the same for every meaning of the function pointers, so no command function is
called. -/
theorem C8_blank_line {F : Type} (call : F → Handler) (cmds : List (Command F))
    (buf : List Char) (tf : Nat) (out : Console) (hnul : NUL ∈ buf)
    (hws : ∀ c ∈ content buf, c = '\t' ∨ c = '\r' ∨ c = '\n' ∨ c = ' ') :
    tokens buf = some [] ∧ runcmdWith call cmds buf tf out = some (0, out) := by
  have hr : runs (content buf) = [] := by
    apply runs_all_ws
    intro c hc
    rcases hws c hc with h | h | h | h <;> rw [h] <;> decide
  have ht : tokens buf = some [] := by
    rw [tokens_eq_runs buf hnul (by rw [hr]; simp), hr]
  refine ⟨ht, ?_⟩
  rw [runcmdWith_of_tokens call cmds buf tf out _ ht, if_pos rfl]

/-- Witness of C8: the empty line and a line of blanks, tabs and line ends. -/
theorem C8_blank_line_witness :
    (tokens "\x00".toList = some [] ∧ runcmd twoFrames 3 "\x00".toList 0 [] = some (0, [])) ∧
    (tokens " \t\r\n  \x00".toList = some [] ∧
      runcmd twoFrames 3 " \t\r\n  \x00".toList 0 [] = some (0, [])) :=
  ⟨C8_blank_line (callMon twoFrames 3) commands "\x00".toList 0 [] (by decide) (by decide),
   C8_blank_line (callMon twoFrames 3) commands " \t\r\n  \x00".toList 0 [] (by decide)
     (by decide)⟩

/-! ### Argument window and `help` -/

/-- C11: for every memory, every frame pointer `p` the loop of `mon_backtrace` starts from
and every number `n`: (1) the console after the first `n` iterations is the console before
them followed, for each frame visited, in the order of the visit, by the header and the
frame line that shows the frame pointer `q`, the return address `q[1]` and then the five
words `q[2]`, `q[3]`, `q[4]`, `q[5]`, `q[6]` in this order; (2) the loop run for `n` tests of
its condition has ended exactly when the walk has met a zero frame pointer within them, and
then its result is that console, with the lines of all frames visited; (3) the loop run for
`n+1` tests has ended exactly when the frame pointer after `n` iterations is zero, with the
console after these iterations; (4) the five words are the words at the byte addresses
`q+8`, `q+12`, `q+16`, `q+20`, `q+24`, those that follow the return-address slot `q+4`. -/
theorem C11_argument_window (m : Machine) (p n : Nat) (out : Console) :
    (backtraceSteps m n p out).2 = out ++ ((visited m n p).map (fun q =>
      backtraceHeader ++ frameLine q (word m q 1) (word m q 2) (word m q 3) (word m q 4)
        (word m q 5) (word m q 6))).flatten ∧
    backtraceLoop m n p out =
      (if (visited m n p).length < n then
        some (out ++ ((visited m n p).map (fun q =>
          backtraceHeader ++ frameLine q (word m q 1) (word m q 2) (word m q 3) (word m q 4)
            (word m q 5) (word m q 6))).flatten)
      else none) ∧
    backtraceLoop m (n + 1) p out =
      (if (backtraceSteps m n p out).1 = 0 then some (backtraceSteps m n p out).2
      else none) ∧
    ∀ q, [word m q 1, word m q 2, word m q 3, word m q 4, word m q 5, word m q 6] =
      [4, 8, 12, 16, 20, 24].map (fun d => m.load ((q + d) % 2 ^ 32) % 2 ^ 32) :=
  ⟨backtraceSteps_console m n p out, backtraceLoop_eq_visited m n p out,
    backtraceLoop_eq_steps m n p out, fun _ => rfl⟩

/-- Witness of C11: the walk over the two frames of `twoFrames`, whose word `8[2]` (at
address 16) is 1, ends within three tests with both frame lines on the console; the walk
on the cyclic chain has printed the lines of the frames 8 and 16 after two iterations,
the word `8[2]` (at address 16) being 8. -/
theorem C11_argument_window_witness :
    visited twoFrames 3 8 = [8, 32] ∧
    backtraceLoop twoFrames 3 8 [] = some ("Stack backtrace:\n" ++
      "  ebp 00000008  eip f0100a62  args 00000001 00000000 00000000 00000000 00000000\n" ++
      "Stack backtrace:\n" ++
      "  ebp 00000020  eip deadbeef  args 00000000 00000000 00000000 00000000 00000000\n"
      ).toList ∧
    visited cyclic 2 8 = [8, 16] ∧
    (backtraceSteps cyclic 2 8 []).2 = ("Stack backtrace:\n" ++
      "  ebp 00000008  eip 00000000  args 00000008 00000000 00000000 00000000 00000000\n" ++
      "Stack backtrace:\n" ++
      "  ebp 00000010  eip 00000000  args 00000000 00000000 00000000 00000000 00000000\n"
      ).toList :=
  ⟨by decide, (C11_argument_window twoFrames 8 3 []).2.1.trans (by decide!), by decide,
    (C11_argument_window cyclic 8 2 []).1.trans (by decide!)⟩

theorem helpLoop_eq {F : Type} : ∀ (cmds : List (Command F)) (out : Console),
    helpLoop cmds out = out ++ (cmds.map (fun c =>
      c.name.toList ++ " - ".toList ++ c.desc.toList ++ "\n".toList)).flatten := by
  intro cmds
  induction cmds with
  | nil => intro out; simp [helpLoop]
  | cons c cs ih =>
    intro out
    rw [helpLoop, ih]
    simp [cprintf, List.append_assoc]

theorem tokens_help : tokens "help\x00".toList = some ["help".toList] := by decide

/-- C12: the command `mon_help` returns 0 and extends the console by one line per entry of
`commands`, in table order and nothing else: the line of an entry is its name, then ` - `,
then its description. The input line `help` makes `runcmd` do exactly this. -/
theorem C12_help_lists_commands (m : Machine) (fuel argc : Nat) (argv : List (List Char))
    (tf : Nat) (out : Console) :
    mon_help argc argv tf out = some (0, out ++ (commands.map (fun c =>
      c.name.toList ++ " - ".toList ++ c.desc.toList ++ "\n".toList)).flatten) ∧
    linesOf ((commands.map (fun c =>
      c.name.toList ++ " - ".toList ++ c.desc.toList ++ "\n".toList)).flatten) =
      commands.map (fun c => c.name.toList ++ " - ".toList ++ c.desc.toList) ∧
    (commands.map (fun c => c.name.toList ++ " - ".toList ++ c.desc.toList)) =
      ["help - Display this list of commands".toList,
       "kerninfo - Display information about the kernel".toList,
       "show - Backtrace through the machine".toList,
       "backtrace - Backtrace through the machine".toList] ∧
    runcmd m fuel "help\x00".toList tf out = mon_help 1 ["help".toList] tf out := by
  refine ⟨?_, by rfl, by rfl, ?_⟩
  · rw [mon_help, helpLoop_eq]
  · unfold runcmd
    rw [runcmdWith_of_tokens _ _ _ _ _ _ tokens_help, if_neg (by simp)]
    exact lookup_first_match (callMon m fuel) "help".toList 1 ["help".toList] tf out
      (by decide) commands
      { name := "help", desc := "Display this list of commands", func := MonFn.mon_help }
      (by decide) (by rfl)

/-! ### The registry -/

theorem filter_length_le_one_of_nodup {α β : Type} [DecidableEq β] (f : α → β) (b : β) :
    ∀ (l : List α), (l.map f).Nodup → (l.filter (fun a => decide (f a = b))).length ≤ 1 := by
  intro l
  induction l with
  | nil => intro _; simp
  | cons a l ih =>
    intro h
    rw [List.map_cons, List.nodup_cons] at h
    by_cases hab : f a = b
    · rw [List.filter_cons_of_pos (by simpa using hab)]
      have hnone : l.filter (fun a => decide (f a = b)) = [] := by
        rw [List.filter_eq_nil_iff]
        intro x hx hfx
        have hxb : f x = b := by simpa using hfx
        exact h.1 (List.mem_map.2 ⟨x, hx, by rw [hxb, hab]⟩)
      rw [hnone]
      simp
    · rw [List.filter_cons_of_neg (by simpa using hab)]
      exact ih h.2

theorem find?_of_filter_eq_singleton {α : Type} (p : α → Bool) (c : α) :
    ∀ (l : List α), l.filter p = [c] → l.find? p = some c := by
  intro l
  induction l with
  | nil => intro h; simp at h
  | cons a l ih =>
    intro h
    by_cases ha : p a = true
    · rw [List.filter_cons_of_pos ha] at h
      rw [List.find?_cons_of_pos _ ha, (List.cons.inj h).1]
    · rw [List.filter_cons_of_neg ha] at h
      rw [List.find?_cons_of_neg _ ha]
      exact ih h

/-- C15: the names in `commands` are pairwise distinct; so for every token at most one
entry of the table has that name, and an entry that has it is the first one found by the
lookup in table order. -/
theorem C15_names_distinct (tok : List Char) :
    (commands.map (fun c => c.name)).Nodup ∧
    (commands.filter (fun c => decide (c.name.toList = tok))).length ≤ 1 ∧
    ∀ c ∈ commands, c.name.toList = tok →
      commands.find? (fun d => decide (d.name.toList = tok)) = some c := by
  have hnd : (commands.map (fun c => c.name.toList)).Nodup := by decide
  refine ⟨by decide, filter_length_le_one_of_nodup _ tok commands hnd, ?_⟩
  intro c hc hct
  have hlen := filter_length_le_one_of_nodup (fun c : Command MonFn => c.name.toList) tok
    commands hnd
  have hmem : c ∈ commands.filter (fun d => decide (d.name.toList = tok)) :=
    List.mem_filter.2 ⟨hc, by simpa using hct⟩
  cases hf : commands.filter (fun d => decide (d.name.toList = tok)) with
  | nil => rw [hf] at hmem; simp at hmem
  | cons x xs =>
    rw [hf] at hmem hlen
    have hxs : xs = [] := by
      cases xs with
      | nil => rfl
      | cons y ys => simp at hlen
    subst hxs
    have hcx : c = x := by simpa using hmem
    subst hcx
    exact find?_of_filter_eq_singleton _ c commands hf

/-- Witness of C15: the token `show` is found at the third entry, the only one named so. -/
theorem C15_names_distinct_witness :
    commands.find? (fun d => decide (d.name.toList = "show".toList)) =
      some { name := "show", desc := "Backtrace through the machine",
             func := MonFn.mon_show } :=
  (C15_names_distinct "show".toList).2.2 _ (by simp [commands]) rfl

/-! ### Idempotence of tokenization -/

theorem gobble_subset : ∀ (rest done d1 r1 : List Char),
    gobble done rest = some (d1, r1) → ∀ x ∈ r1, x ∈ rest := by
  intro rest
  induction rest with
  | nil => intro done d1 r1 h; simp [gobble] at h
  | cons c r ih =>
    intro done d1 r1 h x hx
    rw [gobble] at h
    split at h
    · exact List.mem_cons_of_mem _ (ih _ _ _ h x hx)
    · simp only [Option.some.injEq, Prod.mk.injEq] at h
      rw [← h.2] at hx
      exact hx

theorem scanArg_subset : ∀ (rest done d1 r1 : List Char),
    scanArg done rest = some (d1, r1) → ∀ x ∈ r1, x ∈ rest := by
  intro rest
  induction rest with
  | nil => intro done d1 r1 h; simp [scanArg] at h
  | cons c r ih =>
    intro done d1 r1 h x hx
    rw [scanArg] at h
    split at h
    · exact List.mem_cons_of_mem _ (ih _ _ _ h x hx)
    · simp only [Option.some.injEq, Prod.mk.injEq] at h
      rw [← h.2] at hx
      exact hx

theorem parseLoop_args_NUL : ∀ (fuel argc : Nat) (argv : Argv) (done rest : List Char)
    (a : Nat) (v : Argv) (b : List Char),
    parseLoop fuel argc argv done rest = some (Parsed.args a v b) → NUL ∈ rest := by
  intro fuel
  induction fuel with
  | zero => intro argc argv done rest a v b h; simp [parseLoop] at h
  | succ k ih =>
    intro argc argv done rest a v b h
    rw [parseLoop] at h
    split at h
    · cases h
    · rename_i d1 r1 hg
      split at h
      · cases h
      · rename_i c r2
        split at h
        · rename_i hc
          exact gobble_subset _ _ _ _ hg NUL (by rw [hc]; exact List.mem_cons_self _ _)
        · split at h
          · cases h
          · split at h
            · cases h
            · split at h
              · cases h
              · rename_i d2 r3 hs
                have h1 := ih _ _ _ _ _ _ _ h
                exact gobble_subset _ _ _ _ hg NUL (scanArg_subset _ _ _ _ hs NUL h1)

theorem tokens_some_NUL (buf : List Char) (ts : List (List Char)) (h : tokens buf = some ts) :
    NUL ∈ buf := by
  unfold tokens at h
  split at h
  · rename_i argc argv buf1 hp
    exact parseLoop_args_NUL _ _ _ _ _ _ _ _ (parse_eq buf ▸ hp)
  · cases h

theorem tokens_some_runs (buf : List Char) (ts : List (List Char)) (h : tokens buf = some ts) :
    ts = runs (content buf) ∧ (runs (content buf)).length ≤ MAXARGS - 1 := by
  have hnul := tokens_some_NUL buf ts h
  by_cases hc : (runs (content buf)).length ≤ MAXARGS - 1
  · rw [tokens_eq_runs buf hnul hc] at h
    exact ⟨(Option.some.inj h).symm, hc⟩
  · rw [tokens_tooMany buf hnul (by omega)] at h
    cases h

theorem takeWhile_all {α : Type} (p : α → Bool) : ∀ (l : List α), (∀ x ∈ l, p x = true) →
    l.takeWhile p = l := by
  intro l
  induction l with
  | nil => intro _; rfl
  | cons a l ih =>
    intro h
    rw [List.takeWhile_cons_of_pos (h a (List.mem_cons_self _ _)),
      ih (fun x hx => h x (List.mem_cons_of_mem _ hx))]

theorem dropWhile_all {α : Type} (p : α → Bool) : ∀ (l : List α), (∀ x ∈ l, p x = true) →
    l.dropWhile p = [] := by
  intro l
  induction l with
  | nil => intro _; rfl
  | cons a l ih =>
    intro h
    rw [List.dropWhile_cons_of_pos (h a (List.mem_cons_self _ _)),
      ih (fun x hx => h x (List.mem_cons_of_mem _ hx))]

theorem runs_single (t : List Char) (hne : t ≠ []) (hws : ∀ c ∈ t, isWs c = false) :
    runs t = [t] := by
  cases t with
  | nil => exact absurd rfl hne
  | cons c r =>
    have hr : ∀ x ∈ r, (fun d => !isWs d) x = true := by
      intro x hx
      simp [hws x (List.mem_cons_of_mem _ hx)]
    rw [runs_cons_tok c r (hws c (List.mem_cons_self _ _)), takeWhile_all _ r hr,
      dropWhile_all _ r hr, runs_nil]

theorem runs_append_ws (t s : List Char) (w : Char) (hne : t ≠ [])
    (hws : ∀ c ∈ t, isWs c = false) (hw : isWs w = true) :
    runs (t ++ w :: s) = t :: runs s := by
  cases t with
  | nil => exact absurd rfl hne
  | cons c r =>
    have hr : ∀ x ∈ r, (fun d => !isWs d) x = true := by
      intro x hx
      simp [hws x (List.mem_cons_of_mem _ hx)]
    rw [List.cons_append, runs_cons_tok c _ (hws c (List.mem_cons_self _ _)),
      List.takeWhile_append_of_pos hr, List.dropWhile_append_of_pos hr,
      List.takeWhile_cons_of_neg (by simp [hw]), List.dropWhile_cons_of_neg (by simp [hw]),
      List.append_nil, runs_cons_ws w s hw]

theorem runs_joinSpaces : ∀ (ts : List (List Char)),
    (∀ t ∈ ts, t ≠ [] ∧ ∀ c ∈ t, isWs c = false) → runs (joinSpaces ts) = ts := by
  intro ts
  induction ts with
  | nil => intro _; exact runs_nil
  | cons t us ih =>
    intro h
    have ht := h t (List.mem_cons_self _ _)
    cases us with
    | nil => exact runs_single t ht.1 ht.2
    | cons u vs =>
      rw [joinSpaces, runs_append_ws t _ ' ' ht.1 ht.2 (by decide),
        ih (fun x hx => h x (List.mem_cons_of_mem _ hx))]

theorem joinSpaces_NUL_free : ∀ (ts : List (List Char)), (∀ t ∈ ts, NUL ∉ t) →
    NUL ∉ joinSpaces ts := by
  intro ts
  induction ts with
  | nil => intro _; simp [joinSpaces]
  | cons t us ih =>
    intro h
    cases us with
    | nil => exact h t (List.mem_cons_self _ _)
    | cons u vs =>
      rw [joinSpaces]
      intro hm
      rcases List.mem_append.1 hm with hm | hm
      · exact h t (List.mem_cons_self _ _) hm
      · rcases List.mem_cons.1 hm with hm | hm
        · exact absurd hm (by decide)
        · exact ih (fun x hx => h x (List.mem_cons_of_mem _ hx)) hm

theorem content_append_NUL (s : List Char) (hs : NUL ∉ s) : content (s ++ [NUL]) = s := by
  unfold content
  rw [List.takeWhile_append_of_pos (fun a ha => by
    have : a ≠ NUL := fun e => hs (e ▸ ha)
    simpa using this)]
  simp

theorem tokens_of_text (s : List Char) (hs : NUL ∉ s) (hcnt : (runs s).length ≤ MAXARGS - 1) :
    tokens (s ++ [NUL]) = some (runs s) := by
  have h := tokens_eq_runs (s ++ [NUL]) (by simp) (by rw [content_append_NUL s hs]; exact hcnt)
  rw [content_append_NUL s hs] at h
  exact h

/-- C13: when a line is tokenized to `t1, ..., tn`, every `ti` alone (as a NUL-terminated
line) is tokenized to the one-element sequence `ti`, and the line made of `t1, ..., tn`
with single spaces between them is tokenized to `t1, ..., tn` again. -/
theorem C13_tokenize_idempotent (buf : List Char) (ts : List (List Char))
    (htok : tokens buf = some ts) :
    (∀ t ∈ ts, tokens (t ++ [NUL]) = some [t]) ∧
    tokens (joinSpaces ts ++ [NUL]) = some ts := by
  obtain ⟨hts, hlen⟩ := tokens_some_runs buf ts htok
  have hwf : ∀ t ∈ ts, t ≠ [] ∧ ∀ c ∈ t, isWs c = false := by
    rw [hts]
    exact runs_tokens_wf _ _ (le_refl _)
  have hnul : ∀ t ∈ ts, NUL ∉ t := tokens_NUL_free buf ts htok
  constructor
  · intro t ht
    have h1 := runs_single t (hwf t ht).1 (hwf t ht).2
    have h2 := tokens_of_text t (hnul t ht) (by rw [h1]; simp [MAXARGS])
    rw [h1] at h2
    exact h2
  · have h1 := runs_joinSpaces ts hwf
    have h2 := tokens_of_text (joinSpaces ts) (joinSpaces_NUL_free ts hnul)
      (by rw [h1, hts]; exact hlen)
    rw [h1] at h2
    exact h2

/-- Witness of C13: a line with irregular whitespace. -/
theorem C13_tokenize_idempotent_witness :
    tokens "  ab \t cd\r\ne \x00".toList = some ["ab".toList, "cd".toList, "e".toList] ∧
    (∀ t ∈ ["ab".toList, "cd".toList, "e".toList], tokens (t ++ [NUL]) = some [t]) ∧
    tokens (joinSpaces ["ab".toList, "cd".toList, "e".toList] ++ [NUL]) =
      some ["ab".toList, "cd".toList, "e".toList] :=
  ⟨by decide, C13_tokenize_idempotent "  ab \t cd\r\ne \x00".toList _ (by decide)⟩

/-! ### Destructive tokenization -/

theorem startsFrom_cons_ws (off : Nat) (b : Bool) (c : Char) (s : List Char)
    (hw : isWs c = true) : startsFrom off b (c :: s) = startsFrom (off + 1) true s := by
  simp [startsFrom, hw]

theorem startsFrom_false : ∀ (s : List Char) (off : Nat),
    startsFrom off false s =
      startsFrom (off + (s.takeWhile (fun d => !isWs d)).length) true
        (s.dropWhile (fun d => !isWs d)) := by
  intro s
  induction s with
  | nil => intro off; rfl
  | cons d r ih =>
    intro off
    by_cases hd : isWs d = true
    · rw [List.takeWhile_cons_of_neg (by simp [hd]), List.dropWhile_cons_of_neg (by simp [hd]),
        startsFrom_cons_ws off false d r hd, startsFrom_cons_ws _ true d r hd]
      rfl
    · have hd2 : isWs d = false := by simpa using hd
      rw [List.takeWhile_cons_of_pos (by simp [hd2]), List.dropWhile_cons_of_pos (by simp [hd2])]
      have h1 : startsFrom off false (d :: r) = startsFrom (off + 1) false r := by
        simp [startsFrom, hd2]
      rw [h1, ih (off + 1), List.length_cons]
      congr 1
      omega

theorem startsFrom_cons_tok (off : Nat) (c : Char) (s : List Char) (hc : isWs c = false) :
    startsFrom off true (c :: s) =
      off :: startsFrom (off + 1 + (s.takeWhile (fun d => !isWs d)).length) true
        (s.dropWhile (fun d => !isWs d)) := by
  have h1 : startsFrom off true (c :: s) = off :: startsFrom (off + 1) false s := by
    simp [startsFrom, hc]
  rw [h1, startsFrom_false s (off + 1)]

theorem startsFrom_length : ∀ (n : Nat) (s : List Char) (off : Nat), s.length ≤ n →
    (startsFrom off true s).length = (runs s).length := by
  intro n
  induction n with
  | zero =>
    intro s off hs
    have : s = [] := List.length_eq_zero.1 (Nat.le_zero.1 hs)
    rw [this, runs_nil]
    rfl
  | succ n ih =>
    intro s off hs
    cases s with
    | nil => rw [runs_nil]; rfl
    | cons c r =>
      have hr : r.length ≤ n := by simpa using hs
      by_cases hw : isWs c = true
      · rw [startsFrom_cons_ws off true c r hw, runs_cons_ws c r hw]
        exact ih r _ hr
      · have hw2 : isWs c = false := by simpa using hw
        rw [startsFrom_cons_tok off c r hw2, runs_cons_tok c r hw2, List.length_cons,
          List.length_cons, ih _ _ (le_trans (List.dropWhile_sublist _).length_le hr)]

theorem startsFrom_content_ws : ∀ (rest : List Char) (off : Nat),
    startsFrom off true (content rest) =
      startsFrom (off + (rest.takeWhile isWs).length) true (content (rest.dropWhile isWs)) := by
  intro rest
  induction rest with
  | nil => intro off; rfl
  | cons c r ih =>
    intro off
    by_cases hw : isWs c = true
    · rw [content_cons_of_ne r (isWs_ne_NUL hw), startsFrom_cons_ws off true c _ hw,
        List.takeWhile_cons_of_pos hw, List.dropWhile_cons_of_pos hw, ih (off + 1),
        List.length_cons]
      congr 1
      omega
    · rw [List.takeWhile_cons_of_neg hw, List.dropWhile_cons_of_neg hw]
      rfl

theorem startsFrom_content_tok (off : Nat) (c : Char) (r : List Char) (ht : isTok c = true) :
    startsFrom off true (content (c :: r)) =
      off :: startsFrom (off + ((c :: r).takeWhile isTok).length) true
        (content ((c :: r).dropWhile isTok)) := by
  obtain ⟨hne, hw⟩ := (isTok_iff c).1 ht
  rw [content_cons_of_ne r hne, startsFrom_cons_tok off c _ hw, takeWhile_content,
    dropWhile_content, List.takeWhile_cons_of_pos ht, List.dropWhile_cons_of_pos ht,
    List.length_cons]
  congr 2
  omega

theorem zap_eq : ∀ (buf : List Char),
    zap buf = (content buf).map (fun c => if isWs c = true then NUL else c) ++
      buf.drop (content buf).length := by
  intro buf
  induction buf with
  | nil => rfl
  | cons c r ih =>
    by_cases hc : c = NUL
    · subst hc
      rw [content_cons_NUL]
      simp [zap]
    · rw [content_cons_of_ne r hc, zap, if_neg hc]
      by_cases hw : isWs c = true
      · rw [if_pos hw, ih]
        simp [hw]
      · rw [if_neg hw, ih]
        simp [hw]

theorem parseLoop_ptrs : ∀ (fuel argc : Nat) (argv : Argv) (done rest : List Char),
    NUL ∈ rest → argv.length = MAXARGS →
    argc + (runs (content rest)).length ≤ MAXARGS - 1 →
    (runs (content rest)).length < fuel →
    ∀ (a : Nat) (argv1 : Argv) (b : List Char),
      parseLoop fuel argc argv done rest = some (Parsed.args a argv1 b) →
      ∀ i p, (startsFrom done.length true (content rest)).get? i = some p →
        argv1.get? (argc + i) = some (some p) := by
  intro fuel
  induction fuel with
  | zero => intro argc argv done rest _ _ _ h; exact absurd h (Nat.not_lt_zero _)
  | succ k ih =>
    intro argc argv done rest hnul hlen hcnt hfuel a argv1 b hres i p hi
    have hnul1 : NUL ∈ rest.dropWhile isWs := mem_dropWhile_NUL isWs isWs_NUL rest hnul
    obtain ⟨c, r1, hr1⟩ : ∃ c r1, rest.dropWhile isWs = c :: r1 := by
      cases h : rest.dropWhile isWs with
      | nil => rw [h] at hnul1; simp at hnul1
      | cons c r1 => exact ⟨c, r1, rfl⟩
    have hcw : isWs c = false := head_dropWhile_false isWs rest c r1 hr1
    have hruns : runs (content rest) = runs (content (c :: r1)) := by
      rw [← hr1]; exact (runs_content_dropWhile_ws rest).symm
    rw [startsFrom_content_ws rest done.length, hr1] at hi
    rw [parseLoop, gobble_eq rest done hnul, hr1] at hres
    simp only at hres
    by_cases hc : c = NUL
    · subst hc
      rw [content_cons_NUL] at hi
      simp [startsFrom] at hi
    · have ht : isTok c = true := (isTok_iff c).2 ⟨hc, hcw⟩
      have hnul1c : NUL ∈ c :: r1 := hr1 ▸ hnul1
      have hruns2 := runs_content_tok c r1 ht
      rw [hruns, hruns2] at hcnt hfuel
      simp only [List.length_cons] at hcnt hfuel
      have hargc : argc < MAXARGS - 1 := by omega
      have hargc2 : argc < argv.length := by rw [hlen]; simp only [MAXARGS] at hargc ⊢; omega
      rw [if_neg hc, if_neg (Nat.ne_of_lt hargc)] at hres
      simp only [writeArg, if_pos hargc2] at hres
      rw [scanArg_eq (c :: r1) _ hnul1c] at hres
      simp only at hres
      have hnul2 : NUL ∈ (c :: r1).dropWhile isTok :=
        mem_dropWhile_NUL isTok isTok_NUL _ hnul1c
      have hlen2 : (argv.set argc
          (some (done ++ List.replicate (rest.takeWhile isWs).length NUL).length)).length =
          MAXARGS := by simpa using hlen
      rw [startsFrom_content_tok _ c r1 ht] at hi
      cases i with
      | zero =>
        simp only [List.get?_cons_zero, Option.some.injEq] at hi
        obtain ⟨argv2, hp2, _, hpre, _⟩ := parseLoop_ok k (argc + 1) _
          (done ++ List.replicate (rest.takeWhile isWs).length NUL ++ (c :: r1).takeWhile isTok)
          ((c :: r1).dropWhile isTok) hnul2 hlen2 (by omega) (by omega)
        rw [hp2] at hres
        simp only [Option.some.injEq, Parsed.args.injEq] at hres
        obtain ⟨_, rfl, _⟩ := hres
        rw [Nat.add_zero, hpre argc (by omega), List.get?_eq_getElem?,
          List.getElem?_set_self hargc2, ← hi]
        simp
      | succ j =>
        simp only [List.get?_cons_succ] at hi
        have h2 := ih (argc + 1) _ _ _ hnul2 hlen2 (by omega) (by omega) a argv1 b hres j p
          (by
            rw [← hi]
            congr 2
            simp only [List.length_append, List.length_replicate]
            )
        rw [← h2]
        congr 1
        omega
theorem parse_ptrs (buf : List Char) (hnul : NUL ∈ buf)
    (hcnt : (runs (content buf)).length ≤ MAXARGS - 1) (a : Nat) (argv : Argv)
    (b : List Char) (hp : parse buf = some (Parsed.args a argv b)) :
    ∀ i p, (runStarts (content buf)).get? i = some p → argv.get? i = some (some p) := by
  intro i p hi
  have h := parseLoop_ptrs MAXARGS 0 (List.replicate MAXARGS none) [] buf hnul (by simp)
    (by omega) (by simp only [MAXARGS] at hcnt ⊢; omega) a argv b (parse_eq buf ▸ hp) i p hi
  rw [Nat.zero_add] at h
  exact h

theorem runStarts_length (s : List Char) : (runStarts s).length = (runs s).length :=
  startsFrom_length s.length s 0 (le_refl _)

/-- C16: after `runcmd` has tokenized a NUL-terminated buffer with at most 15 tokens, every
byte of the line (the bytes before the terminator) that held a whitespace character holds
NUL and every other byte of the line is unchanged; the terminator and the bytes after it
are unchanged; `argv[i]` is the start position of the `i`-th maximal run of non-whitespace
characters of the line; and reading the new buffer from `argv[i]` up to the next NUL gives
the `i`-th token. -/
theorem C16_destructive_tokenization (buf : List Char) (hnul : NUL ∈ buf)
    (hcnt : (runs (content buf)).length ≤ MAXARGS - 1) :
    ∃ argv, parse buf = some (Parsed.args (runs (content buf)).length argv
        ((content buf).map (fun c => if isWs c = true then NUL else c) ++
          buf.drop (content buf).length)) ∧
      (buf.drop (content buf).length).head? = some NUL ∧
      argv.take (runs (content buf)).length = (runStarts (content buf)).map some ∧
      (runStarts (content buf)).map (cstrAt ((content buf).map
        (fun c => if isWs c = true then NUL else c) ++ buf.drop (content buf).length)) =
        runs (content buf) := by
  obtain ⟨argv, hp, hl, hstr⟩ := parse_ok buf hnul hcnt
  have hptr := parse_ptrs buf hnul hcnt _ argv _ hp
  rw [zap_eq] at hp hstr
  have htake : argv.take (runs (content buf)).length = (runStarts (content buf)).map some := by
    apply List.ext_get?
    intro i
    by_cases hi : i < (runs (content buf)).length
    · have hi2 : i < (runStarts (content buf)).length := by rw [runStarts_length]; exact hi
      have h1 : (runStarts (content buf)).get? i = some ((runStarts (content buf)).get ⟨i, hi2⟩) :=
        List.get?_eq_get hi2
      rw [List.get?_eq_getElem?, List.getElem?_take_of_lt hi, ← List.get?_eq_getElem?,
        hptr i _ h1, List.get?_eq_getElem?, List.getElem?_map, ← List.get?_eq_getElem?, h1]
      rfl
    · rw [List.get?_eq_none.2 (by simp; omega), List.get?_eq_none.2
        (by rw [List.length_map, runStarts_length]; omega)]
  refine ⟨argv, hp, ?_, htake, ?_⟩
  · have hz : ∀ (l : List Char), NUL ∈ l → (l.drop (content l).length).head? = some NUL := by
      intro l
      induction l with
      | nil => intro h; simp at h
      | cons c r ih =>
        intro h
        by_cases hc : c = NUL
        · subst hc
          rw [content_cons_NUL]
          rfl
        · rw [content_cons_of_ne r hc]
          rcases List.mem_cons.1 h with h | h
          · exact absurd h.symm hc
          · simpa using ih h
    exact hz buf hnul
  · rw [← hstr]
    apply List.ext_get?
    intro i
    by_cases hi : i < (runs (content buf)).length
    · have hi2 : i < (runStarts (content buf)).length := by rw [runStarts_length]; exact hi
      have h1 : (runStarts (content buf)).get? i = some ((runStarts (content buf)).get ⟨i, hi2⟩) :=
        List.get?_eq_get hi2
      simp only [argStrings, List.get?_eq_getElem?, List.getElem?_map, List.getElem?_range hi,
        Option.map_some']
      rw [← List.get?_eq_getElem?, h1]
      simp only [Option.map_some', argStr, hptr i _ h1]
    · rw [List.get?_eq_none.2 (by rw [List.length_map, runStarts_length]; omega),
        List.get?_eq_none.2 (by rw [argStrings_length]; omega)]

/-- Witness of C16: a line with irregular whitespace, followed by bytes after the
terminator. -/
theorem C16_destructive_tokenization_witness :
    ∃ argv, parse "  ab \t cd e \x00 z".toList =
        some (Parsed.args 3 argv "\x00\x00ab\x00\x00\x00cd\x00e\x00\x00 z".toList) ∧
      argv.take 3 = [some 2, some 7, some 10] ∧
      [2, 7, 10].map (cstrAt "\x00\x00ab\x00\x00\x00cd\x00e\x00\x00 z".toList) =
        ["ab".toList, "cd".toList, "e".toList] := by
  obtain ⟨argv, h1, _, h3, h4⟩ :=
    C16_destructive_tokenization "  ab \t cd e \x00 z".toList (by decide) (by decide)
  exact ⟨argv, h1, h3, h4⟩

/-! ### Bounds of `argc` -/

theorem loopHead_inv (buf : List Char) (argc : Nat) (argv : Argv) (done rest : List Char)
    (h : LoopHead buf argc argv done rest) :
    argc ≤ MAXARGS - 1 ∧ argv.length = MAXARGS ∧
      parse buf = parseLoop (MAXARGS - argc) argc argv done rest := by
  induction h with
  | entry => exact ⟨by decide, by decide, rfl⟩
  | @next argc argv done rest done1 r1 done2 rest2 c _ hg hc ha hs ih =>
    obtain ⟨hle, hlen, hp⟩ := ih
    have hlt : argc < MAXARGS - 1 := lt_of_le_of_ne hle ha
    refine ⟨by omega, by simpa using hlen, ?_⟩
    have hf : MAXARGS - argc = (MAXARGS - (argc + 1)) + 1 := by
      simp only [MAXARGS] at hlt ⊢; omega
    have hw : argc < argv.length := by rw [hlen]; simp only [MAXARGS] at hlt ⊢; omega
    rw [hp, hf, parseLoop, hg]
    simp only
    rw [if_neg hc, if_neg ha]
    simp only [writeArg, if_pos hw]
    rw [hs]

/-- C17: on every buffer, in every state in which the head of the parsing loop of `runcmd`
is reached, `argc ≤ MAXARGS-1 = 15` and `argv` has its 16 entries, so `argc` is an index of
`argv`: the store `argv[argc++] = buf` of the iteration and the store `argv[argc] = 0`
after the loop fall inside the array, and the state is one the loop really passes through.
When a NUL-terminated line with at most 15 tokens is parsed, entries `0..argc-1` of `argv`
point to the tokens and entry `argc` is the null pointer. -/
theorem C17_argc_within_argv (buf : List Char) :
    (∀ argc argv done rest, LoopHead buf argc argv done rest →
      argc ≤ MAXARGS - 1 ∧ argv.length = MAXARGS ∧ argc < argv.length ∧
      (writeArg argv argc none).isSome = true ∧
      parse buf = parseLoop (MAXARGS - argc) argc argv done rest) ∧
    (NUL ∈ buf → (runs (content buf)).length ≤ MAXARGS - 1 →
      ∃ argv buf1 argv1, parse buf = some (Parsed.args (runs (content buf)).length argv buf1) ∧
        writeArg argv (runs (content buf)).length none = some argv1 ∧
        argv1.length = MAXARGS ∧
        argv1.get? (runs (content buf)).length = some none ∧
        argv1.take (runs (content buf)).length = (runStarts (content buf)).map some ∧
        argStrings buf1 (runs (content buf)).length argv1 = runs (content buf)) := by
  constructor
  · intro argc argv done rest h
    obtain ⟨hle, hlen, hp⟩ := loopHead_inv buf argc argv done rest h
    have hw : argc < argv.length := by rw [hlen]; simp only [MAXARGS] at hle ⊢; omega
    exact ⟨hle, hlen, hw, by simp [writeArg, hw], hp⟩
  · intro hnul hcnt
    obtain ⟨argv, hp, hl, hstr⟩ := parse_ok buf hnul hcnt
    have hptr := parse_ptrs buf hnul hcnt _ argv _ hp
    have hw : (runs (content buf)).length < argv.length := by
      rw [hl]; simp only [MAXARGS] at hcnt ⊢; omega
    refine ⟨argv, zap buf, argv.set (runs (content buf)).length none, hp, ?_, ?_, ?_, ?_, ?_⟩
    · simp [writeArg, hw]
    · simpa using hl
    · rw [List.get?_eq_getElem?, List.getElem?_set_self hw]
    · apply List.ext_get?
      intro i
      by_cases hi : i < (runs (content buf)).length
      · have hi2 : i < (runStarts (content buf)).length := by rw [runStarts_length]; exact hi
        have h1 : (runStarts (content buf)).get? i =
            some ((runStarts (content buf)).get ⟨i, hi2⟩) := List.get?_eq_get hi2
        rw [List.get?_eq_getElem?, List.getElem?_take_of_lt hi,
          List.getElem?_set_ne (Nat.ne_of_gt hi), ← List.get?_eq_getElem?,
          hptr i _ h1, List.get?_eq_getElem?, List.getElem?_map, ← List.get?_eq_getElem?, h1]
        rfl
      · rw [List.get?_eq_none.2 (by simp; omega), List.get?_eq_none.2
          (by rw [List.length_map, runStarts_length]; omega)]
    · rw [argStrings_set, hstr]

/-- Witness of C17: the loop head reached after the first token of the line `ab c`, and the
parse of that line. -/
theorem C17_argc_within_argv_witness :
    LoopHead "ab c\x00".toList 1 ((List.replicate MAXARGS none).set 0 (some 0)) "ab".toList
      " c\x00".toList ∧
    (writeArg ((List.replicate MAXARGS none).set 0 (some 0)) 1 none).isSome = true ∧
    ∃ argv buf1 argv1, parse "ab c\x00".toList = some (Parsed.args 2 argv buf1) ∧
      writeArg argv 2 none = some argv1 ∧ argv1.get? 2 = some none ∧
      argv1.take 2 = [some 0, some 3] ∧
      argStrings buf1 2 argv1 = ["ab".toList, "c".toList] := by
  have hh : LoopHead "ab c\x00".toList 1 ((List.replicate MAXARGS none).set 0 (some 0))
      "ab".toList " c\x00".toList :=
    @LoopHead.next "ab c\x00".toList 0 _ [] _ [] "b c\x00".toList _ _ 'a'
      LoopHead.entry (by rfl) (by decide) (by decide) (by rfl)
  obtain ⟨argv, buf1, argv1, h1, h2, _, h4, h5, h6⟩ :=
    (C17_argc_within_argv "ab c\x00".toList).2 (by decide) (by decide)
  exact ⟨hh, ((C17_argc_within_argv "ab c\x00".toList).1 _ _ _ _ hh).2.2.2.1,
    argv, buf1, argv1, h1, h2, h4, h5, h6⟩

/-! ### The monitor loop -/

theorem monitorLoop_append {F : Type} (call : F → Handler) (cmds : List (Command F))
    (tf : Nat) : ∀ (pre post : List Read) (out : Console),
    monitorLoop call cmds tf (pre ++ post) out =
      match monitorLoop call cmds tf pre out with
      | none => none
      | some (MonitorEnd.exited o u) => some (MonitorEnd.exited o (u ++ post))
      | some (MonitorEnd.reading o) => monitorLoop call cmds tf post o := by
  intro pre
  induction pre with
  | nil => intro post out; rfl
  | cons r rs ih =>
    intro post out
    rw [List.cons_append, monitorLoop, monitorLoop]
    cases hl : r.line with
    | none => exact ih post _
    | some buf =>
      simp only
      cases hr : runcmdWith call cmds buf tf (cprintf r.echo out) with
      | none => rfl
      | some res =>
        obtain ⟨st, o1⟩ := res
        simp only
        by_cases hs : st < 0
        · rw [if_pos hs, if_pos hs]
        · rw [if_neg hs, if_neg hs]
          exact ih post o1

theorem monitorLoop_exited {F : Type} (call : F → Handler) (cmds : List (Command F))
    (tf : Nat) : ∀ (reads : List Read) (out out1 : Console) (unread : List Read),
    monitorLoop call cmds tf reads out = some (MonitorEnd.exited out1 unread) →
    ∃ pre r buf st out0, reads = pre ++ r :: unread ∧
      monitorLoop call cmds tf pre out = some (MonitorEnd.reading out0) ∧
      r.line = some buf ∧
      runcmdWith call cmds buf tf (out0 ++ r.echo) = some (st, out1) ∧ st < 0 := by
  intro reads
  induction reads with
  | nil => intro out out1 unread h; simp [monitorLoop] at h
  | cons r rs ih =>
    intro out out1 unread h
    rw [monitorLoop] at h
    cases hl : r.line with
    | none =>
      rw [hl] at h
      obtain ⟨pre, r1, buf, st, out0, h1, h2, h3, h4, h5⟩ := ih _ _ _ h
      refine ⟨r :: pre, r1, buf, st, out0, by rw [h1]; rfl, ?_, h3, h4, h5⟩
      rw [monitorLoop, hl]
      exact h2
    | some buf =>
      rw [hl] at h
      simp only at h
      cases hr : runcmdWith call cmds buf tf (cprintf r.echo out) with
      | none => rw [hr] at h; cases h
      | some res =>
        obtain ⟨st, o1⟩ := res
        rw [hr] at h
        simp only at h
        by_cases hs : st < 0
        · rw [if_pos hs] at h
          simp only [Option.some.injEq, MonitorEnd.exited.injEq] at h
          obtain ⟨rfl, rfl⟩ := h
          exact ⟨[], r, buf, st, out, rfl, rfl, hl, hr, hs⟩
        · rw [if_neg hs] at h
          obtain ⟨pre, r1, buf1, st1, out0, h1, h2, h3, h4, h5⟩ := ih _ _ _ h
          refine ⟨r :: pre, r1, buf1, st1, out0, by rw [h1]; rfl, ?_, h3, h4, h5⟩
          rw [monitorLoop, hl]
          simp only [hr, if_neg hs]
          exact h2

/-- C14: the loop of `monitor` over any sequence of calls of `readline`, for every table and
every meaning of the function pointers. (1) If the loop has left through `break`, then it
did so right after `runcmd` returned a negative status on a non-null line, it had not left
before that line, and the calls after that line were never made. (2) A null read is
skipped. (3) After a line whose status is negative the loop is left at once. (4) After a
line whose status is zero or positive the loop goes on with the next call, from the console
that `runcmd` left. (5) Once the loop is left, further calls change nothing. -/
theorem C14_monitor_loop {F : Type} (call : F → Handler) (cmds : List (Command F))
    (tf : Nat) :
    (∀ reads out out1 unread,
      monitorLoop call cmds tf reads out = some (MonitorEnd.exited out1 unread) →
      ∃ pre r buf st out0, reads = pre ++ r :: unread ∧
        monitorLoop call cmds tf pre out = some (MonitorEnd.reading out0) ∧
        r.line = some buf ∧
        runcmdWith call cmds buf tf (out0 ++ r.echo) = some (st, out1) ∧ st < 0) ∧
    (∀ pre r post out out0,
      monitorLoop call cmds tf pre out = some (MonitorEnd.reading out0) → r.line = none →
      monitorLoop call cmds tf (pre ++ r :: post) out =
        monitorLoop call cmds tf post (out0 ++ r.echo)) ∧
    (∀ pre r post out out0 buf st out1,
      monitorLoop call cmds tf pre out = some (MonitorEnd.reading out0) → r.line = some buf →
      runcmdWith call cmds buf tf (out0 ++ r.echo) = some (st, out1) → st < 0 →
      monitorLoop call cmds tf (pre ++ r :: post) out = some (MonitorEnd.exited out1 post)) ∧
    (∀ pre r post out out0 buf st out1,
      monitorLoop call cmds tf pre out = some (MonitorEnd.reading out0) → r.line = some buf →
      runcmdWith call cmds buf tf (out0 ++ r.echo) = some (st, out1) → 0 ≤ st →
      monitorLoop call cmds tf (pre ++ r :: post) out = monitorLoop call cmds tf post out1) ∧
    (∀ pre post out out1 unread,
      monitorLoop call cmds tf pre out = some (MonitorEnd.exited out1 unread) →
      monitorLoop call cmds tf (pre ++ post) out =
        some (MonitorEnd.exited out1 (unread ++ post))) := by
  refine ⟨monitorLoop_exited call cmds tf, ?_, ?_, ?_, ?_⟩
  · intro pre r post out out0 hpre hl
    rw [monitorLoop_append, hpre]
    simp only
    rw [monitorLoop, hl]
    rfl
  · intro pre r post out out0 buf st out1 hpre hl hr hs
    rw [monitorLoop_append, hpre]
    simp only
    rw [monitorLoop, hl]
    simp only [cprintf, hr, if_pos hs]
  · intro pre r post out out0 buf st out1 hpre hl hr hs
    rw [monitorLoop_append, hpre]
    simp only
    rw [monitorLoop, hl]
    simp only [cprintf, hr, if_neg (not_lt.2 hs)]
  · intro pre post out out1 unread hpre
    rw [monitorLoop_append, hpre]

/-- Witness of C14: on the reads `fiveReads` (a null read, `nop`, `pos 1`, `quit`, `nop`)
over the table `quitTable`, the loop is still reading after the first three, leaves at
`quit`, whose status is -1, and never makes the fifth call. -/
theorem C14_monitor_loop_witness :
    monitorLoop statusCall quitTable 0 (fiveReads.take 3) [] =
      some (MonitorEnd.reading "K> K> K> ".toList) ∧
    runcmdWith statusCall quitTable "quit\x00".toList 0 "K> K> K> K> ".toList =
      some (-1, "K> K> K> K> ".toList) ∧
    monitorLoop statusCall quitTable 0 fiveReads [] =
      some (MonitorEnd.exited "K> K> K> K> ".toList (fiveReads.drop 4)) :=
  ⟨by decide, by decide,
   (C14_monitor_loop statusCall quitTable 0).2.2.1 (fiveReads.take 3)
     ⟨"K> ".toList, some "quit\x00".toList⟩ (fiveReads.drop 4) [] "K> K> K> ".toList
     "quit\x00".toList (-1) "K> K> K> K> ".toList (by decide) rfl (by decide) (by decide)⟩

/-! ### Statuses of the registered commands -/

theorem callMon_status (m : Machine) (fuel : Nat) (f : MonFn) (argc : Nat)
    (argv : List (List Char)) (tf : Nat) (out : Console) (r : Int × Console)
    (h : callMon m fuel f argc argv tf out = some r) : r.1 = 0 := by
  cases f with
  | mon_help =>
    simp only [callMon, mon_help, Option.some.injEq] at h
    rw [← h]
  | mon_kerninfo =>
    simp only [callMon, mon_kerninfo, Option.some.injEq] at h
    rw [← h]
  | mon_show =>
    simp only [callMon, mon_show, Option.some.injEq] at h
    rw [← h]
  | mon_backtrace =>
    simp only [callMon, mon_backtrace] at h
    split at h
    · cases h
    · simp only [Option.some.injEq] at h
      rw [← h]

theorem lookup_status {F : Type} (call : F → Handler)
    (hcall : ∀ f argc argv tf out r, call f argc argv tf out = some r → r.1 = 0)
    (argv0 : List Char) (argc : Nat) (argv : List (List Char)) (tf : Nat) (out : Console) :
    ∀ (cmds : List (Command F)) (r : Int × Console),
      lookup call argv0 argc argv tf cmds out = some r → r.1 = 0 := by
  intro cmds
  induction cmds with
  | nil =>
    intro r h
    simp only [lookup, Option.some.injEq] at h
    rw [← h]
  | cons c cs ih =>
    intro r h
    rw [lookup] at h
    split at h
    · exact hcall _ _ _ _ _ _ h
    · exact ih r h

theorem runcmdWith_status {F : Type} (call : F → Handler)
    (hcall : ∀ f argc argv tf out r, call f argc argv tf out = some r → r.1 = 0)
    (cmds : List (Command F)) (buf : List Char) (tf : Nat) (out : Console)
    (r : Int × Console) (h : runcmdWith call cmds buf tf out = some r) : r.1 = 0 := by
  unfold runcmdWith at h
  split at h
  · cases h
  · simp only [Option.some.injEq] at h
    rw [← h]
  · split at h
    · cases h
    · split at h
      · simp only [Option.some.injEq] at h
        rw [← h]
      · exact lookup_status call hcall _ _ _ tf out cmds r h

theorem monitorLoop_never_exits {F : Type} (call : F → Handler)
    (hcall : ∀ f argc argv tf out r, call f argc argv tf out = some r → r.1 = 0)
    (cmds : List (Command F)) (tf : Nat) :
    ∀ (reads : List Read) (out out1 : Console) (unread : List Read),
      monitorLoop call cmds tf reads out ≠ some (MonitorEnd.exited out1 unread) := by
  intro reads out out1 unread h
  obtain ⟨pre, r, buf, st, out0, _, _, _, hr, hs⟩ :=
    monitorLoop_exited call cmds tf reads out out1 unread h
  have := runcmdWith_status call hcall cmds buf tf _ _ hr
  simp only at this
  omega

/-- C18: every function of the table `commands` returns 0 whenever it returns (the three
informational commands always return); so whenever `runcmd` returns on an input line, its
status is 0, never negative; and so the loop of `monitor`, over any sequence of calls of
`readline`, is never left through `break`. -/
theorem C18_registered_commands_never_exit (m : Machine) (fuel : Nat) :
    (∀ c ∈ commands, ∀ argc argv tf out r,
      callMon m fuel c.func argc argv tf out = some r → r.1 = 0) ∧
    (∀ argc argv tf out,
      (mon_help argc argv tf out).map Prod.fst = some 0 ∧
      (mon_kerninfo m argc argv tf out).map Prod.fst = some 0 ∧
      (mon_show argc argv tf out).map Prod.fst = some 0) ∧
    (∀ buf tf out r, runcmd m fuel buf tf out = some r → r.1 = 0) ∧
    (∀ tf reads out out1 unread,
      monitor m fuel tf reads out ≠ some (MonitorEnd.exited out1 unread)) := by
  refine ⟨?_, ?_, ?_, ?_⟩
  · intro c _ argc argv tf out r h
    exact callMon_status m fuel _ _ _ _ _ _ h
  · intro argc argv tf out
    exact ⟨rfl, rfl, rfl⟩
  · intro buf tf out r h
    exact runcmdWith_status _ (callMon_status m fuel) _ _ _ _ _ h
  · intro tf reads out out1 unread
    exact monitorLoop_never_exits _ (callMon_status m fuel) _ _ _ _ _ _

/-- Witness of C18: the line `backtrace` on the stack `twoFrames` returns, with status 0,
and the monitor is still reading after it. -/
theorem C18_registered_commands_never_exit_witness :
    (runcmd twoFrames 3 "backtrace\x00".toList 0 []).isSome = true ∧
    (∀ r, runcmd twoFrames 3 "backtrace\x00".toList 0 [] = some r → r.1 = 0) ∧
    (∃ out, monitor twoFrames 3 0 [⟨"K> ".toList, some "backtrace\x00".toList⟩] [] =
      some (MonitorEnd.reading out)) :=
  ⟨by rfl,
   fun r h => (C18_registered_commands_never_exit twoFrames 3).2.2.1 _ _ _ r h,
   ⟨_, by rfl⟩⟩

end Monitor
